import Mathlib

/-!
Shallow embedding of the two core components of the `git-narrator` repository
(`src/git.rs` and `src/emotes.rs`): the diff splitter and the commit-message
categorizer.

Rust strings are modelled as `List Char`.  Rust's `str::len` is the UTF-8 byte
length, modelled by `byteLen` (the sum of the UTF-8 sizes of the characters).
Rust byte-index slicing (`&s[a..b]`) panics when an index is not a character
boundary; such a panic is modelled by `Option.none` in `byteSplitAt` and in the
functions built on top of it.  Fallible functions returning `Result` are
modelled with `Except String`.
-/

/-- UTF-8 byte length of a string, Rust's `str::len`. -/
def byteLen (s : List Char) : Nat := (s.map Char.utf8Size).sum

/-- Number of characters of a string: the unit of length used by the
specification's phrase "character length" (`str::chars().count()` in Rust).
This is a spec-side definition, kept separate from `byteLen`, which is what
the code's `len()` actually computes. -/
def specCharLength (s : List Char) : Nat := s.length

/-- Rust `char::is_whitespace`: the Unicode `White_Space` property. -/
def rustIsWhitespace (c : Char) : Bool :=
  (0x09 ≤ c.toNat && c.toNat ≤ 0x0D) || c.toNat == 0x20 || c.toNat == 0x85 ||
  c.toNat == 0xA0 || c.toNat == 0x1680 ||
  (0x2000 ≤ c.toNat && c.toNat ≤ 0x200A) || c.toNat == 0x2028 ||
  c.toNat == 0x2029 || c.toNat == 0x202F || c.toNat == 0x205F ||
  c.toNat == 0x3000

/-- Rust `str::trim`: remove leading and trailing whitespace. -/
def rustTrim (s : List Char) : List Char :=
  ((s.dropWhile rustIsWhitespace).reverse.dropWhile rustIsWhitespace).reverse

/-- Remove one trailing carriage return (what Rust's `str::lines` does to every
line that was terminated by a `\n`). -/
def stripCR (l : List Char) : List Char :=
  if l.getLast? = some '\r' then l.dropLast else l

/-- Split a string at its first newline: returns the text before the first
`\n` and, when a `\n` exists, the text after it. -/
def breakNl : List Char → List Char × Option (List Char)
  | [] => ([], none)
  | c :: rest =>
    if c = '\n' then ([], some rest)
    else
      match breakNl rest with
      | (l, r) => (c :: l, r)

theorem breakNl_some_length : ∀ (s l r : List Char), breakNl s = (l, some r) → r.length < s.length := by
  intro s
  induction s with
  | nil => intro l r h; simp [breakNl] at h
  | cons c rest ih =>
    intro l r h
    by_cases hc : c = '\n'
    · simp only [breakNl, if_pos hc] at h
      simp only [Prod.mk.injEq, Option.some.injEq] at h
      rw [← h.2]
      simp
    · simp only [breakNl, if_neg hc] at h
      rcases hr : breakNl rest with ⟨l', r'⟩
      rw [hr] at h
      simp only [Prod.mk.injEq] at h
      rw [h.2] at hr
      have := ih l' r hr
      simp only [List.length_cons]
      omega

/-- Worker for `rustLines`; the fuel is always instantiated with the length
of the string, which suffices because every split consumes at least the
newline character. -/
def rustLinesFuel : Nat → List Char → List (List Char)
  | _, [] => []
  | 0, _ :: _ => []
  | fuel + 1, s@(_ :: _) =>
    match breakNl s with
    | (line, none) => [line]
    | (line, some rest) => stripCR line :: rustLinesFuel fuel rest

/-- Rust `str::lines`: split at `\n`, stripping one `\r` before each `\n`;
a final line terminator produces no trailing empty line. -/
def rustLines (s : List Char) : List (List Char) := rustLinesFuel s.length s

theorem rustLinesFuel_congr : ∀ (fuel fuel' : Nat) (s : List Char),
    s.length ≤ fuel → s.length ≤ fuel' → rustLinesFuel fuel s = rustLinesFuel fuel' s := by
  intro fuel
  induction fuel with
  | zero =>
    intro fuel' s hf hf'
    cases s with
    | nil => cases fuel' <;> rfl
    | cons c t => simp at hf
  | succ f ih =>
    intro fuel' s hf hf'
    cases s with
    | nil => cases fuel' <;> rfl
    | cons c t =>
      cases fuel' with
      | zero => simp at hf'
      | succ f' =>
        simp only [rustLinesFuel]
        rcases hb : breakNl (c :: t) with ⟨line, _ | rest⟩
        · rfl
        · have hlen := breakNl_some_length _ _ _ hb
          simp only [List.length_cons] at hlen hf hf'
          show stripCR line :: rustLinesFuel f rest = stripCR line :: rustLinesFuel f' rest
          rw [ih f' rest (by omega) (by omega)]

theorem rustLines_of_breakNl_none {s line : List Char}
    (hs : s ≠ []) (h : breakNl s = (line, none)) : rustLines s = [line] := by
  cases s with
  | nil => exact absurd rfl hs
  | cons c t =>
    unfold rustLines
    simp only [List.length_cons, rustLinesFuel, h]

theorem rustLines_of_breakNl_some {s line rest : List Char}
    (hs : s ≠ []) (h : breakNl s = (line, some rest)) :
    rustLines s = stripCR line :: rustLines rest := by
  cases s with
  | nil => exact absurd rfl hs
  | cons c t =>
    unfold rustLines
    simp only [List.length_cons, rustLinesFuel, h]
    have hlen := breakNl_some_length _ _ _ h
    simp only [List.length_cons] at hlen
    rw [rustLinesFuel_congr t.length rest.length rest (by omega) le_rfl]

/-- Concatenate lines, appending a newline after each (how the splitter's
accumulators are built: `push_str(line); push('\n')`). -/
def joinNL (ls : List (List Char)) : List Char := (ls.map (fun l => l ++ ['\n'])).flatten

/-- Concatenate lines with a single `\n` between consecutive lines. -/
def joinSep : List (List Char) → List Char
  | [] => []
  | [l] => l
  | l :: ls => l ++ '\n' :: joinSep ls

/-- Rust `str::starts_with(pat)`. -/
def rustStartsWith (pat s : List Char) : Bool := pat.isPrefixOf s

/-- Rust `str::contains(pat)`: substring test. -/
def containsSub (s pat : List Char) : Bool :=
  match s with
  | [] => pat.isEmpty
  | _ :: t => pat.isPrefixOf s || containsSub t pat

/-- Represents a split diff chunk with context (`DiffChunk` in `src/git.rs`).
The `description` is free diagnostic text, kept as a Lean `String`. -/
structure DiffChunk where
  content : List Char
  description : String
deriving DecidableEq, Repr

/-- Result of diff splitting operation (`SplitDiffResult` in `src/git.rs`). -/
structure SplitDiffResult where
  chunks : List DiffChunk
  total_size : Nat
  split_method : String
deriving DecidableEq, Repr

/-- Size threshold for splitting diffs, in units of `str::len` (bytes);
`DIFF_SIZE_THRESHOLD` in `src/git.rs`. -/
def DIFF_SIZE_THRESHOLD : Nat := 8000

/-- Check if a diff needs to be split based on size threshold
(`needs_splitting` in `src/git.rs`): `diff.len() > DIFF_SIZE_THRESHOLD`. -/
def needs_splitting (diff : List Char) : Bool :=
  DIFF_SIZE_THRESHOLD < byteLen diff

/-- Char-index of the first occurrence of `pat` in `s` (Rust `str::find`
returns the byte index of the same occurrence; the index is only ever used to
slice `s` back at that occurrence's boundaries, and slicing at the char index
yields exactly the text the byte-index slice yields). -/
def findSubIdx (pat : List Char) : List Char → Option Nat
  | [] => if pat.isEmpty then some 0 else none
  | s@(_ :: t) => if pat.isPrefixOf s then some 0 else (findSubIdx pat t).map (· + 1)

/-- Rust `str::split_whitespace`: the whitespace-separated words. -/
def rustSplitWhitespace (s : List Char) : List (List Char) :=
  match h : s.dropWhile rustIsWhitespace with
  | [] => []
  | c :: t =>
    let word := (c :: t).takeWhile (fun x => !rustIsWhitespace x)
    let rest := (c :: t).dropWhile (fun x => !rustIsWhitespace x)
    word :: rustSplitWhitespace rest
termination_by s.length
decreasing_by
  have hws : rustIsWhitespace c = false := by
    have hc2 := List.head?_dropWhile_not rustIsWhitespace s
    rw [h] at hc2; simpa using hc2
  have h1 : (c :: t).length ≤ s.length := by
    rw [← h]; exact (List.dropWhile_sublist _).length_le
  have h2 : (List.dropWhile (fun x => !rustIsWhitespace x) (c :: t)).length ≤ t.length := by
    rw [List.dropWhile_cons_of_pos (by simp [hws])]
    exact (List.dropWhile_sublist _).length_le
  simp only [List.length_cons] at h1
  omega

/-- Extract file name from diff header line (`extract_file_name` in
`src/git.rs`): parse `diff --git a/path b/path`, with a whitespace-token
fallback. -/
def extract_file_name (line : List Char) : List Char :=
  match findSubIdx "a/".data line with
  | some start =>
    let rest := line.drop start
    match findSubIdx " b/".data rest with
    | some e => (rest.drop 2).take (e - 2)
    | none => fallbackName line
  | none => fallbackName line
where
  /-- Fallback: the first whitespace-separated token containing `/` or `.`. -/
  fallbackName (line : List Char) : List Char :=
    ((rustSplitWhitespace line).find?
      (fun part => part.contains '/' || part.contains '.')).getD "unknown_file".data

/-- Split a string after `min n (byteLen s)` UTF-8 bytes (the Rust slice pair
`(&s[start..end], &s[end..])` with `end = (start + n).min(s.len())`).  Returns
`none` when the byte offset `n` falls strictly inside a character: in Rust
that slice PANICS (byte index not at a char boundary). -/
def byteSplitAt : List Char → Nat → Option (List Char × List Char)
  | s, 0 => some ([], s)
  | [], _ + 1 => some ([], [])
  | c :: s, n + 1 =>
    if c.utf8Size ≤ n + 1 then
      (byteSplitAt s (n + 1 - c.utf8Size)).map (fun p => (c :: p.1, p.2))
    else none

/-- The successive character-window chunks of the loop in
`split_by_character_chunks`; the fuel argument is always instantiated with the
character count of the text, which suffices whenever `chunk_size > 0` (for
`chunk_size = 0` the Rust loop would not terminate). -/
def charChunksFuel (chunk_size : Nat) : Nat → List Char → Option (List (List Char))
  | _, [] => some []
  | 0, _ :: _ => none
  | fuel + 1, s@(_ :: _) =>
    (byteSplitAt s chunk_size).bind
      (fun p => (charChunksFuel chunk_size fuel p.2).map (p.1 :: ·))

/-- Attach the `Character chunk i (chars a-b)` descriptions produced by
`split_by_character_chunks`'s loop (`chunk_num` starts at 1, `start` at 0,
and the ranges are byte offsets into the original text). -/
def mkCharChunks : Nat → Nat → List (List Char) → List DiffChunk
  | _, _, [] => []
  | num, start, c :: cs =>
    { content := c,
      description := s!"Character chunk {num} (chars {start}-{start + byteLen c})" }
      :: mkCharChunks (num + 1) (start + byteLen c) cs

/-- Split diff by character count chunks as a last resort
(`split_by_character_chunks` in `src/git.rs`).  `none` models the Rust panic
on slicing at a non-character-boundary byte offset. -/
def split_by_character_chunks (diff : List Char) (chunk_size : Nat) : Option SplitDiffResult :=
  match charChunksFuel chunk_size diff.length diff with
  | none => none
  | some contents =>
    some { chunks := mkCharChunks 1 0 contents,
           total_size := byteLen diff,
           split_method := "by_characters" }

/-- A line starting a new file section: `line.starts_with("diff --git")`. -/
def isFileMarker (line : List Char) : Bool := rustStartsWith "diff --git".data line

/-- Accumulator state of the loop in `split_by_files`. -/
structure FilesState where
  chunks : List DiffChunk
  current_file_content : List Char
  current_file_name : List Char
  in_file : Bool
deriving Repr

/-- Flush of the accumulated file section, as performed by `split_by_files`
both when a new `diff --git` marker is seen and after the loop. -/
def filesFlushChunks (st : FilesState) : List DiffChunk :=
  if st.in_file ∧ st.current_file_content ≠ [] then
    st.chunks ++ [{ content := rustTrim st.current_file_content,
                    description := "File: " ++ String.mk st.current_file_name }]
  else st.chunks

/-- One iteration of the line loop of `split_by_files`. -/
def filesStep (st : FilesState) (line : List Char) : FilesState :=
  let st :=
    if isFileMarker line then
      { chunks := filesFlushChunks st,
        current_file_content := [],
        current_file_name := extract_file_name line,
        in_file := true }
    else st
  if st.in_file then
    { st with current_file_content := st.current_file_content ++ line ++ ['\n'] }
  else st

/-- Split diff by individual files (`split_by_files` in `src/git.rs`). -/
def split_by_files (diff : List Char) : Except String SplitDiffResult :=
  let st := (rustLines diff).foldl filesStep
    { chunks := [], current_file_content := [], current_file_name := [], in_file := false }
  let chunks := filesFlushChunks st
  if chunks = [] then Except.error "No files found in diff"
  else Except.ok { chunks := chunks, total_size := byteLen diff, split_method := "by_files" }

/-- A per-file header line of a unified diff, as recognized by
`split_by_hunks`. -/
def isHeaderLine (line : List Char) : Bool :=
  rustStartsWith "diff --git".data line || rustStartsWith "index ".data line ||
  rustStartsWith "--- ".data line || rustStartsWith "+++ ".data line

/-- Accumulator state of the loop in `split_by_hunks`. -/
structure HunksState where
  chunks : List DiffChunk
  current_chunk : List Char
  current_file_header : List Char
  hunk_count : Nat
deriving Repr

/-- One iteration of the line loop of `split_by_hunks`. -/
def hunksStep (st : HunksState) (line : List Char) : HunksState :=
  if isHeaderLine line then
    { st with current_file_header := st.current_file_header ++ line ++ ['\n'] }
  else if rustStartsWith "@@".data line then
    let st :=
      if st.current_chunk ≠ [] then
        { st with
          chunks := st.chunks ++
            [{ content := st.current_file_header ++ rustTrim st.current_chunk,
               description := "Hunk " ++ Nat.repr st.hunk_count }],
          current_chunk := [] }
      else st
    { st with hunk_count := st.hunk_count + 1,
              current_chunk := st.current_chunk ++ line ++ ['\n'] }
  else if !isFileMarker line then
    { st with current_chunk := st.current_chunk ++ line ++ ['\n'] }
  else st

/-- Split diff by hunks (`split_by_hunks` in `src/git.rs`). -/
def split_by_hunks (diff : List Char) : Except String SplitDiffResult :=
  let st := (rustLines diff).foldl hunksStep
    { chunks := [], current_chunk := [], current_file_header := [], hunk_count := 0 }
  let chunks :=
    if st.current_chunk ≠ [] then
      st.chunks ++
        [{ content := st.current_file_header ++ rustTrim st.current_chunk,
           description := "Hunk " ++ Nat.repr st.hunk_count }]
    else st.chunks
  if chunks = [] then Except.error "No hunks found in diff"
  else Except.ok { chunks := chunks, total_size := byteLen diff, split_method := "by_hunks" }

/-- A chunk passes the caller's size check: `chunk.content.len() <= DIFF_SIZE_THRESHOLD`. -/
def chunkValid (c : DiffChunk) : Bool := byteLen c.content ≤ DIFF_SIZE_THRESHOLD

/-- All chunks pass the size check (the `all_chunks_valid` test in
`split_large_diff`). -/
def resultValid (r : SplitDiffResult) : Bool := r.chunks.all chunkValid

/-- One iteration of the strategy loop of `split_large_diff`: accept the
strategy's result when it is `Ok` and all its chunks are within the size
limit, otherwise move on. -/
def tryAttempt (r : Except String SplitDiffResult) : Option SplitDiffResult :=
  match r with
  | Except.ok r => if resultValid r then some r else none
  | Except.error _ => none

/-- Split a large diff into smaller chunks using progressive strategies
(`split_large_diff` in `src/git.rs`).  The outer `Option` models panics: a
`none` is a Rust panic inside a character-window strategy (byte slicing at a
non-boundary offset), which aborts the function without returning; `some`
carries the returned `Result`. -/
def split_large_diff (diff : List Char) : Option (Except String SplitDiffResult) :=
  if !needs_splitting diff then
    some (Except.ok
      { chunks := [{ content := diff, description := "Complete diff (no splitting needed)" }],
        total_size := byteLen diff,
        split_method := "none" })
  else
    match tryAttempt (split_by_files diff) with
    | some r => some (Except.ok r)
    | none =>
      match tryAttempt (split_by_hunks diff) with
      | some r => some (Except.ok r)
      | none =>
        match split_by_character_chunks diff (DIFF_SIZE_THRESHOLD / 2) with
        | none => none
        | some r =>
          if resultValid r then some (Except.ok r)
          else
            match split_by_character_chunks diff (DIFF_SIZE_THRESHOLD / 4) with
            | none => none
            | some r2 =>
              if resultValid r2 then some (Except.ok r2)
              else some (Except.error
                "Unable to split diff into manageable chunks after 4 attempts")

@[simp] theorem byteLen_nil : byteLen [] = 0 := rfl

@[simp] theorem byteLen_cons (c : Char) (s : List Char) :
    byteLen (c :: s) = c.utf8Size + byteLen s := by
  simp [byteLen]

@[simp] theorem byteLen_append (s t : List Char) :
    byteLen (s ++ t) = byteLen s + byteLen t := by
  simp [byteLen]

theorem byteLen_replicate (n : Nat) (c : Char) :
    byteLen (List.replicate n c) = n * c.utf8Size := by
  induction n with
  | zero => simp
  | succ m ih => simp [List.replicate_succ, ih, Nat.succ_mul]; omega

theorem byteLen_eq_zero {s : List Char} (h : byteLen s = 0) : s = [] := by
  cases s with
  | nil => rfl
  | cons c t =>
    have := c.utf8Size_pos
    simp at h
    omega

theorem length_le_byteLen (s : List Char) : s.length ≤ byteLen s := by
  induction s with
  | nil => simp
  | cons c t ih =>
    have := c.utf8Size_pos
    simp
    omega

theorem byteSplitAt_zero (s : List Char) : byteSplitAt s 0 = some ([], s) := by
  cases s <;> rfl

theorem byteSplitAt_cons_succ (c : Char) (s : List Char) (n : Nat) :
    byteSplitAt (c :: s) (n + 1) =
      if c.utf8Size ≤ n + 1 then
        (byteSplitAt s (n + 1 - c.utf8Size)).map (fun p => (c :: p.1, p.2))
      else none := rfl

theorem byteSplitAt_some (s : List Char) : ∀ (n : Nat) (a b : List Char),
    byteSplitAt s n = some (a, b) → a ++ b = s ∧ byteLen a = min n (byteLen s) := by
  induction s with
  | nil =>
    intro n a b h
    cases n with
    | zero =>
      rw [byteSplitAt_zero] at h
      simp only [Option.some.injEq, Prod.mk.injEq] at h
      obtain ⟨h1, h2⟩ := h
      subst h1; subst h2
      simp
    | succ m =>
      simp only [byteSplitAt, Option.some.injEq, Prod.mk.injEq] at h
      obtain ⟨h1, h2⟩ := h
      subst h1; subst h2
      simp
  | cons c t ih =>
    intro n a b h
    cases n with
    | zero =>
      rw [byteSplitAt_zero] at h
      simp only [Option.some.injEq, Prod.mk.injEq] at h
      obtain ⟨h1, h2⟩ := h
      subst h1; subst h2
      simp
    | succ m =>
      rw [byteSplitAt_cons_succ] at h
      by_cases hc : c.utf8Size ≤ m + 1
      · rw [if_pos hc] at h
        rcases hbs : byteSplitAt t (m + 1 - c.utf8Size) with _ | ⟨a', b'⟩ <;> rw [hbs] at h
        · simp at h
        · simp only [Option.map_some', Option.some.injEq, Prod.mk.injEq] at h
          obtain ⟨ha, hb⟩ := h
          obtain ⟨hab, hlen⟩ := ih (m + 1 - c.utf8Size) a' b' hbs
          subst ha; subst hb
          refine ⟨by simp [hab], ?_⟩
          have htot : byteLen a' + byteLen b' = byteLen t := by
            rw [← byteLen_append, hab]
          simp only [byteLen_cons]
          simp only [Nat.min_def] at hlen ⊢
          split at hlen <;> split <;> omega
      · rw [if_neg hc] at h
        simp at h

theorem byteSplitAt_fst_ne_nil {c : Char} {t : List Char} {n : Nat} {a b : List Char}
    (h : byteSplitAt (c :: t) (n + 1) = some (a, b)) : a ≠ [] := by
  rw [byteSplitAt_cons_succ] at h
  by_cases hc : c.utf8Size ≤ n + 1
  · rw [if_pos hc] at h
    rcases hbs : byteSplitAt t (n + 1 - c.utf8Size) with _ | ⟨a', b'⟩ <;> rw [hbs] at h
    · simp at h
    · simp only [Option.map_some', Option.some.injEq, Prod.mk.injEq] at h
      rw [← h.1]
      simp
  · rw [if_neg hc] at h
    simp at h

theorem charChunksFuel_nil (cs fuel : Nat) : charChunksFuel cs fuel [] = some [] := by
  cases fuel <;> rfl

theorem charChunksFuel_cons (cs f : Nat) (c : Char) (t : List Char) :
    charChunksFuel cs (f + 1) (c :: t) =
      (byteSplitAt (c :: t) cs).bind
        (fun p => (charChunksFuel cs f p.2).map (p.1 :: ·)) := rfl

theorem charChunksFuel_spec (cs : Nat) (hcs : 0 < cs) :
    ∀ (fuel : Nat) (l : List Char) (out : List (List Char)),
      l.length ≤ fuel → charChunksFuel cs fuel l = some out →
      out.flatten = l ∧ (∀ c ∈ out, byteLen c ≤ cs) ∧
        (∀ c ∈ out.dropLast, byteLen c = cs) := by
  intro fuel
  induction fuel with
  | zero =>
    intro l out hlen h
    cases l with
    | nil =>
      rw [charChunksFuel_nil] at h
      simp at h
      subst h
      simp
    | cons c t => simp at hlen
  | succ f ih =>
    intro l out hlen h
    cases l with
    | nil =>
      rw [charChunksFuel_nil] at h
      simp at h
      subst h
      simp
    | cons c t =>
      rw [charChunksFuel_cons] at h
      rcases hbs : byteSplitAt (c :: t) cs with _ | ⟨a, b⟩ <;> rw [hbs] at h
      · simp at h
      · simp only [Option.some_bind] at h
        rcases hcc : charChunksFuel cs f b with _ | out' <;> rw [hcc] at h
        · simp at h
        · simp only [Option.map_some', Option.some.injEq] at h
          subst h
          obtain ⟨hab, halen⟩ := byteSplitAt_some _ _ _ _ hbs
          obtain ⟨m, hm⟩ : ∃ m, cs = m + 1 := ⟨cs - 1, by omega⟩
          have hane : a ≠ [] := byteSplitAt_fst_ne_nil (hm ▸ hbs)
          have hblen : b.length ≤ f := by
            have h1 : a.length + b.length = t.length + 1 := by
              rw [← List.length_append, hab]; simp
            have h2 : 0 < a.length := List.length_pos.mpr hane
            simp only [List.length_cons] at hlen
            omega
          obtain ⟨hflat, hle, hlast⟩ := ih b out' hblen hcc
          have htot : byteLen a + byteLen b = byteLen (c :: t) := by
            rw [← byteLen_append, hab]
          refine ⟨by simp [hflat, hab], ?_, ?_⟩
          · intro x hx
            rcases List.mem_cons.mp hx with rfl | hx'
            · rw [halen]; exact Nat.min_le_left _ _
            · exact hle x hx'
          · intro x hx
            cases out' with
            | nil => simp at hx
            | cons y ys =>
              rw [List.dropLast_cons_of_ne_nil (by simp)] at hx
              rcases List.mem_cons.mp hx with rfl | hx'
              · have hbne : b ≠ [] := by
                  intro hb
                  rw [hb, charChunksFuel_nil] at hcc
                  simp at hcc
                have hbpos : 0 < byteLen b := by
                  rcases Nat.eq_zero_or_pos (byteLen b) with h0 | h0
                  · exact absurd (byteLen_eq_zero h0) hbne
                  · exact h0
                rw [Nat.min_def] at halen
                split at halen <;> omega
              · exact hlast x hx'

theorem mkCharChunks_contents : ∀ (num start : Nat) (cs : List (List Char)),
    (mkCharChunks num start cs).map (fun c => c.content) = cs := by
  intro num start cs
  induction cs generalizing num start with
  | nil => simp [mkCharChunks]
  | cons c t ih => simp [mkCharChunks, ih]

theorem split_by_character_chunks_spec {d : List Char} {cs : Nat} {r : SplitDiffResult}
    (hcs : 0 < cs) (h : split_by_character_chunks d cs = some r) :
    (r.chunks.map (fun c => c.content)).flatten = d ∧
    r.split_method = "by_characters" ∧ r.total_size = byteLen d ∧
    (∀ c ∈ r.chunks, byteLen c.content ≤ cs) ∧
    (∀ c ∈ r.chunks.dropLast, byteLen c.content = cs) := by
  unfold split_by_character_chunks at h
  rcases hcc : charChunksFuel cs d.length d with _ | contents <;> rw [hcc] at h
  · simp at h
  · simp only [Option.some.injEq] at h
    subst h
    obtain ⟨hflat, hle, hlast⟩ := charChunksFuel_spec cs hcs d.length d contents le_rfl hcc
    refine ⟨?_, by trivial, by trivial, ?_, ?_⟩
    · simpa [mkCharChunks_contents] using hflat
    · intro c hc
      apply hle
      rw [← mkCharChunks_contents 1 0 contents]
      exact List.mem_map_of_mem _ hc
    · intro c hc
      apply hlast
      have hdl : (mkCharChunks 1 0 contents).dropLast.map (fun c => c.content)
          = contents.dropLast := by
        rw [List.map_dropLast, mkCharChunks_contents]
      rw [← hdl]
      exact List.mem_map_of_mem _ hc

theorem tryAttempt_some {e : Except String SplitDiffResult} {r : SplitDiffResult}
    (h : tryAttempt e = some r) : e = Except.ok r ∧ resultValid r = true := by
  cases e with
  | error msg => simp [tryAttempt] at h
  | ok r' =>
    simp only [tryAttempt] at h
    by_cases hv : resultValid r' = true
    · rw [if_pos hv] at h
      simp only [Option.some.injEq] at h
      subst h
      exact ⟨rfl, hv⟩
    · rw [if_neg hv] at h
      simp at h

theorem quarter_chunks_valid {d : List Char} {r : SplitDiffResult}
    (h : split_by_character_chunks d (DIFF_SIZE_THRESHOLD / 4) = some r) :
    resultValid r = true := by
  obtain ⟨-, -, -, h4, -⟩ :=
    split_by_character_chunks_spec (by norm_num [DIFF_SIZE_THRESHOLD]) h
  unfold resultValid
  rw [List.all_eq_true]
  intro c hc
  unfold chunkValid
  have := h4 c hc
  simp only [DIFF_SIZE_THRESHOLD] at this ⊢
  simp
  omega

theorem half_chunks_valid {d : List Char} {r : SplitDiffResult}
    (h : split_by_character_chunks d (DIFF_SIZE_THRESHOLD / 2) = some r) :
    resultValid r = true := by
  obtain ⟨-, -, -, h4, -⟩ :=
    split_by_character_chunks_spec (by norm_num [DIFF_SIZE_THRESHOLD]) h
  unfold resultValid
  rw [List.all_eq_true]
  intro c hc
  unfold chunkValid
  have := h4 c hc
  simp only [DIFF_SIZE_THRESHOLD] at this ⊢
  simp
  omega

theorem split_large_diff_ok_valid {d : List Char} {r : SplitDiffResult}
    (h : split_large_diff d = some (Except.ok r)) : resultValid r = true := by
  unfold split_large_diff at h
  by_cases hns : needs_splitting d = true
  · rw [if_neg (by simp [hns])] at h
    rcases h1 : tryAttempt (split_by_files d) with _ | r1 <;> simp only [h1] at h
    · rcases h2 : tryAttempt (split_by_hunks d) with _ | r2 <;> simp only [h2] at h
      · rcases h3 : split_by_character_chunks d (DIFF_SIZE_THRESHOLD / 2) with _ | r3 <;>
          simp only [h3] at h
        · simp at h
        · by_cases hv3 : resultValid r3 = true
          · rw [if_pos hv3] at h
            simp only [Option.some.injEq, Except.ok.injEq] at h
            subst h
            exact hv3
          · rw [if_neg hv3] at h
            exact absurd (half_chunks_valid h3) hv3
      · simp only [Option.some.injEq, Except.ok.injEq] at h
        subst h
        exact (tryAttempt_some h2).2
    · simp only [Option.some.injEq, Except.ok.injEq] at h
      subst h
      exact (tryAttempt_some h1).2
  · rw [if_pos (by simp [hns])] at h
    simp only [Option.some.injEq, Except.ok.injEq] at h
    subst h
    unfold resultValid chunkValid
    simp only [List.all_cons, List.all_nil, Bool.and_true]
    simp only [needs_splitting] at hns
    simp at hns ⊢
    omega

theorem split_large_diff_never_error {d : List Char} {u : Except String SplitDiffResult}
    (h : split_large_diff d = some u) : ∃ r, u = Except.ok r := by
  unfold split_large_diff at h
  by_cases hns : needs_splitting d = true
  · rw [if_neg (by simp [hns])] at h
    rcases h1 : tryAttempt (split_by_files d) with _ | r1 <;> simp only [h1] at h
    · rcases h2 : tryAttempt (split_by_hunks d) with _ | r2 <;> simp only [h2] at h
      · rcases h3 : split_by_character_chunks d (DIFF_SIZE_THRESHOLD / 2) with _ | r3 <;>
          simp only [h3] at h
        · simp at h
        · by_cases hv3 : resultValid r3 = true
          · rw [if_pos hv3] at h
            simp only [Option.some.injEq] at h
            exact ⟨r3, h.symm⟩
          · rw [if_neg hv3] at h
            exact absurd (half_chunks_valid h3) hv3
      · simp only [Option.some.injEq] at h
        exact ⟨r2, h.symm⟩
    · simp only [Option.some.injEq] at h
      exact ⟨r1, h.symm⟩
  · rw [if_pos (by simp [hns])] at h
    simp only [Option.some.injEq] at h
    exact ⟨_, h.symm⟩

/-- C1: for every diff `d` for which `split_large_diff d` returns a successful
`SplitDiffResult` (by any strategy, including the degenerate "none" strategy),
every chunk in the result has content length at most the threshold of 8000
characters (it holds in both length units: the character count
`specCharLength`, the claim's unit, and the byte count `byteLen`, the unit of
the code's check `chunk.content.len() <= DIFF_SIZE_THRESHOLD`). -/
theorem C1_split_chunks_within_threshold {d : List Char} {r : SplitDiffResult}
    (h : split_large_diff d = some (Except.ok r)) :
    ∀ c ∈ r.chunks, specCharLength c.content ≤ 8000 ∧ byteLen c.content ≤ 8000 := by
  have hv := split_large_diff_ok_valid h
  intro c hc
  unfold resultValid at hv
  rw [List.all_eq_true] at hv
  have hcv := hv c hc
  unfold chunkValid at hcv
  simp only [DIFF_SIZE_THRESHOLD] at hcv
  simp at hcv
  exact ⟨le_trans (length_le_byteLen _) hcv, hcv⟩

deriving instance DecidableEq for Except

/-- Concrete small diff used by several witnesses. -/
def smallDiff : List Char := "abc".data

/-- The result `split_large_diff` returns on `smallDiff` (degenerate "none"
strategy). -/
def smallDiffRes : SplitDiffResult :=
  { chunks := [{ content := smallDiff, description := "Complete diff (no splitting needed)" }],
    total_size := 3,
    split_method := "none" }

theorem C1_split_chunks_within_threshold_witness :
    specCharLength smallDiff ≤ 8000 ∧ byteLen smallDiff ≤ 8000 := by
  have happ := C1_split_chunks_within_threshold
    (d := smallDiff) (r := smallDiffRes) (by decide)
  exact happ { content := smallDiff, description := "Complete diff (no splitting needed)" }
    (by simp [smallDiffRes])

/-- C2 counterexample: the claim measures the threshold in characters, but the
code's `needs_splitting` compares `diff.len()`, a byte count.  A diff of 4001
two-byte characters has character length 4001 (at most 8000), yet
`needs_splitting` is already true, because its byte length is 8002. -/
theorem C2_counterexample_char_vs_byte :
    needs_splitting (List.replicate 4001 'é') = true ∧
    ¬ 8000 < specCharLength (List.replicate 4001 'é') := by
  constructor
  · have hsz : ('é').utf8Size = 2 := by decide
    simp only [needs_splitting, byteLen_replicate, hsz, DIFF_SIZE_THRESHOLD]
    decide
  · simp only [specCharLength, List.length_replicate]
    omega

/-- C2 (amended): `needs_splitting d` is true iff the BYTE length of `d`
(`d.len()`) strictly exceeds 8000; consequently, for every diff `d` of byte
length at most 8000 (including exactly 8000 and the empty diff),
`split_large_diff d` succeeds and returns exactly one chunk whose content
equals `d`, with strategy tag "none" and `total_size` equal to the byte
length of `d`. -/
theorem C2_needs_splitting_amended (d : List Char) :
    (needs_splitting d = true ↔ 8000 < byteLen d) ∧
    (byteLen d ≤ 8000 →
      split_large_diff d = some (Except.ok
        { chunks := [{ content := d, description := "Complete diff (no splitting needed)" }],
          total_size := byteLen d,
          split_method := "none" })) := by
  constructor
  · simp [needs_splitting, DIFF_SIZE_THRESHOLD]
  · intro hle
    unfold split_large_diff
    rw [if_pos]
    simp only [needs_splitting, DIFF_SIZE_THRESHOLD]
    simp
    omega

theorem C2_needs_splitting_amended_witness :
    (needs_splitting smallDiff = true ↔ 8000 < byteLen smallDiff) ∧
    split_large_diff smallDiff = some (Except.ok
      { chunks := [{ content := smallDiff,
                     description := "Complete diff (no splitting needed)" }],
        total_size := byteLen smallDiff,
        split_method := "none" }) :=
  ⟨(C2_needs_splitting_amended smallDiff).1,
   (C2_needs_splitting_amended smallDiff).2 (by decide)⟩

/-- C3: for every input text and every window size used by the
character-window strategies (threshold/2 = 4000 and threshold/4 = 2000
bytes), whenever the character-window splitter produces a result (it panics
on byte offsets that fall inside a multi-byte character, see C10),
concatenating the contents of all chunks in order reproduces the input
exactly, in consecutive non-overlapping windows of the given size where only
the final window may be shorter. -/
theorem C3_char_window_concat {d : List Char} {cs : Nat} {r : SplitDiffResult}
    (hcs : cs = DIFF_SIZE_THRESHOLD / 2 ∨ cs = DIFF_SIZE_THRESHOLD / 4)
    (h : split_by_character_chunks d cs = some r) :
    (r.chunks.map (fun c => c.content)).flatten = d ∧
    (∀ c ∈ r.chunks.dropLast, byteLen c.content = cs) ∧
    (∀ c ∈ r.chunks, byteLen c.content ≤ cs) := by
  have hpos : 0 < cs := by
    rcases hcs with rfl | rfl <;> norm_num [DIFF_SIZE_THRESHOLD]
  obtain ⟨h1, -, -, h4, h5⟩ := split_by_character_chunks_spec hpos h
  exact ⟨h1, h5, h4⟩

/-- The result of the half-threshold character-window strategy on `smallDiff`. -/
def smallCharRes : SplitDiffResult :=
  { chunks := [{ content := smallDiff, description := "Character chunk 1 (chars 0-3)" }],
    total_size := 3,
    split_method := "by_characters" }

theorem C3_char_window_concat_witness :
    (smallCharRes.chunks.map (fun c => c.content)).flatten = smallDiff ∧
    (∀ c ∈ smallCharRes.chunks.dropLast, byteLen c.content = DIFF_SIZE_THRESHOLD / 2) ∧
    (∀ c ∈ smallCharRes.chunks, byteLen c.content ≤ DIFF_SIZE_THRESHOLD / 2) :=
  C3_char_window_concat (Or.inl rfl) (by decide)

/-- Condition of claim C4 on an `Err`-able strategy result: the strategy
"fails structurally" (returns `Err`) or produces at least one chunk longer
than the threshold. -/
def attemptBad (e : Except String SplitDiffResult) : Prop :=
  match e with
  | Except.error _ => True
  | Except.ok r => ∃ c ∈ r.chunks, DIFF_SIZE_THRESHOLD < byteLen c.content

/-- Condition of claim C4 on a character-window strategy result.  These
strategies never return `Err` in the code; a `none` here is a panic (see
C10), which neither fails with `Err` nor produces any chunk. -/
def attemptBadC (o : Option SplitDiffResult) : Prop :=
  match o with
  | none => False
  | some r => ∃ c ∈ r.chunks, DIFF_SIZE_THRESHOLD < byteLen c.content

/-- Claim C4's right-hand side: each of the four strategies, in the fixed
order by-file, by-hunk, half-threshold windows, quarter-threshold windows,
fails structurally or produces an oversized chunk. -/
def allStrategiesBad (d : List Char) : Prop :=
  attemptBad (split_by_files d) ∧ attemptBad (split_by_hunks d) ∧
  attemptBadC (split_by_character_chunks d (DIFF_SIZE_THRESHOLD / 2)) ∧
  attemptBadC (split_by_character_chunks d (DIFF_SIZE_THRESHOLD / 4))

theorem attemptBadC_half_false (d : List Char) :
    ¬ attemptBadC (split_by_character_chunks d (DIFF_SIZE_THRESHOLD / 2)) := by
  rcases hs : split_by_character_chunks d (DIFF_SIZE_THRESHOLD / 2) with _ | r
  · simp [attemptBadC]
  · obtain ⟨-, -, -, h4, -⟩ :=
      split_by_character_chunks_spec (by norm_num [DIFF_SIZE_THRESHOLD]) hs
    simp only [attemptBadC]
    rintro ⟨c, hc, hover⟩
    have := h4 c hc
    simp only [DIFF_SIZE_THRESHOLD] at this hover
    omega

/-- C4: for every diff, whenever `split_large_diff` returns (the character
window strategies can instead panic, see C10), it returns a successful
result — so the "unable to split" error is returned if and only if all four
strategies fail or produce oversized chunks, both sides of the equivalence
being impossible: the half-threshold window strategy, when it does not
panic, always yields chunks of at most 4000 bytes, within the threshold.
In particular no returned error ever carries partial chunk output, and a
diff without file or hunk markers never produces this error. -/
theorem C4_unsplittable_error_iff {d : List Char} {u : Except String SplitDiffResult}
    (h : split_large_diff d = some u) :
    (∃ r, u = Except.ok r) ∧
    ((∃ e, u = Except.error e) ↔ allStrategiesBad d) := by
  obtain ⟨r, hr⟩ := split_large_diff_never_error h
  refine ⟨⟨r, hr⟩, ?_, ?_⟩
  · rintro ⟨e, he⟩
    rw [hr] at he
    exact absurd he (by simp)
  · intro hbad
    exact absurd hbad.2.2.1 (attemptBadC_half_false d)

theorem C4_unsplittable_error_iff_witness :
    (∃ r, (Except.ok smallDiffRes : Except String SplitDiffResult) = Except.ok r) ∧
    ((∃ e, (Except.ok smallDiffRes : Except String SplitDiffResult) = Except.error e) ↔
      allStrategiesBad smallDiff) :=
  C4_unsplittable_error_iff (d := smallDiff) (u := Except.ok smallDiffRes) (by decide)

theorem byteSplitAt_append_byteLen (l₁ l₂ : List Char) (k : Nat) :
    byteSplitAt (l₁ ++ l₂) (byteLen l₁ + k) =
      (byteSplitAt l₂ k).map (fun p => (l₁ ++ p.1, p.2)) := by
  induction l₁ with
  | nil =>
    simp only [List.nil_append, byteLen_nil, Nat.zero_add]
    cases byteSplitAt l₂ k <;> simp
  | cons c t ih =>
    have hpos := c.utf8Size_pos
    obtain ⟨m, hm⟩ : ∃ m, c.utf8Size + byteLen t + k = m + 1 := ⟨c.utf8Size + byteLen t + k - 1, by omega⟩
    have harg : byteLen (c :: t) + k = m + 1 := by simp only [byteLen_cons]; omega
    rw [List.cons_append, harg, byteSplitAt_cons_succ, if_pos (by omega)]
    have hm2 : m + 1 - c.utf8Size = byteLen t + k := by omega
    rw [hm2, ih]
    cases byteSplitAt l₂ k <;> simp

theorem breakNl_noNl {s : List Char} (h : ∀ c ∈ s, c ≠ '\n') : breakNl s = (s, none) := by
  induction s with
  | nil => rfl
  | cons c t ih =>
    have hc : c ≠ '\n' := h c (by simp)
    simp only [breakNl, if_neg hc]
    rw [ih (fun x hx => h x (by simp [hx]))]

theorem rustLines_noNl {s : List Char} (hne : s ≠ []) (h : ∀ c ∈ s, c ≠ '\n') :
    rustLines s = [s] :=
  rustLines_of_breakNl_none hne (breakNl_noNl h)

theorem dropWhile_ws_eq_self {l : List Char} {c : Char} (h : l.head? = some c)
    (hc : rustIsWhitespace c = false) : l.dropWhile rustIsWhitespace = l := by
  cases l with
  | nil => simp at h
  | cons a t =>
    simp only [List.head?_cons, Option.some.injEq] at h
    subst h
    exact List.dropWhile_cons_of_neg (by simp [hc])

theorem rustTrim_eq_self {l : List Char} {c₁ c₂ : Char}
    (h1 : l.head? = some c₁) (hc1 : rustIsWhitespace c₁ = false)
    (h2 : l.getLast? = some c₂) (hc2 : rustIsWhitespace c₂ = false) :
    rustTrim l = l := by
  unfold rustTrim
  rw [dropWhile_ws_eq_self h1 hc1,
      dropWhile_ws_eq_self (by rw [List.head?_reverse]; exact h2) hc2,
      List.reverse_reverse]

theorem rustTrim_append_newline {l : List Char} {c₁ c₂ : Char}
    (h1 : l.head? = some c₁) (hc1 : rustIsWhitespace c₁ = false)
    (h2 : l.getLast? = some c₂) (hc2 : rustIsWhitespace c₂ = false) :
    rustTrim (l ++ ['\n']) = l := by
  unfold rustTrim
  have hhead : (l ++ ['\n']).head? = some c₁ := by
    cases l with
    | nil => simp at h1
    | cons a t => simp at h1 ⊢; exact h1
  rw [dropWhile_ws_eq_self hhead hc1]
  rw [List.reverse_append]
  simp only [List.reverse_cons, List.reverse_nil, List.nil_append, List.singleton_append]
  rw [List.dropWhile_cons_of_pos (by decide)]
  rw [dropWhile_ws_eq_self (by rw [List.head?_reverse]; exact h2) hc2]
  simp

theorem isPrefixOf_false_of_head {p s : List Char} {cp c : Char}
    (hp : p.head? = some cp) (hs : s.head? = some c) (hne : cp ≠ c) :
    p.isPrefixOf s = false := by
  cases p with
  | nil => simp at hp
  | cons a as =>
    cases s with
    | nil => simp at hs
    | cons b bs =>
      simp only [List.head?_cons, Option.some.injEq] at hp hs
      subst hp; subst hs
      simp only [List.isPrefixOf]
      simp [hne]

theorem charChunksFuel_none_of_split_none {cs fuel : Nat} {l : List Char}
    (hl : l ≠ []) (hf : fuel ≠ 0) (h : byteSplitAt l cs = none) :
    charChunksFuel cs fuel l = none := by
  cases l with
  | nil => exact absurd rfl hl
  | cons c t =>
    cases fuel with
    | zero => exact absurd rfl hf
    | succ f =>
      rw [charChunksFuel_cons, h]
      rfl

/-- The failing input for claim C10: 3999 one-byte characters followed by
2501 two-byte characters.  Its byte length is 9001 > 8000, it contains no
newline and no file or hunk marker, and byte offset 4000 falls in the middle
of the first two-byte character. -/
def panicDiff : List Char := List.replicate 3999 'a' ++ List.replicate 2501 'é'

theorem panicDiff_cons : panicDiff = 'a' :: (List.replicate 3998 'a' ++ List.replicate 2501 'é') := by
  unfold panicDiff
  rw [show (3999 : Nat) = 3998 + 1 from rfl, List.replicate_succ, List.cons_append]

theorem panicDiff_head : panicDiff.head? = some 'a' := by
  rw [panicDiff_cons]; rfl

theorem panicDiff_getLast : panicDiff.getLast? = some 'é' := by
  unfold panicDiff
  rw [List.getLast?_append, List.getLast?_replicate, if_neg (by norm_num)]
  rfl

theorem byteLen_panicDiff : byteLen panicDiff = 9001 := by
  unfold panicDiff
  rw [byteLen_append, byteLen_replicate, byteLen_replicate,
      show ('a').utf8Size = 1 from by decide, show ('é').utf8Size = 2 from by decide]

theorem panicDiff_noNl : ∀ c ∈ panicDiff, c ≠ '\n' := by
  intro c hc
  unfold panicDiff at hc
  rcases List.mem_append.mp hc with h | h <;>
    rw [List.eq_of_mem_replicate h] <;> decide

theorem panicDiff_ne_nil : panicDiff ≠ [] := by
  rw [panicDiff_cons]
  exact List.cons_ne_nil _ _

theorem rustLines_panicDiff : rustLines panicDiff = [panicDiff] :=
  rustLines_noNl panicDiff_ne_nil panicDiff_noNl

theorem isFileMarker_panicDiff : isFileMarker panicDiff = false :=
  isPrefixOf_false_of_head (p := "diff --git".data) rfl panicDiff_head (by decide)

theorem isHeaderLine_panicDiff : isHeaderLine panicDiff = false := by
  unfold isHeaderLine rustStartsWith
  rw [isPrefixOf_false_of_head (p := "diff --git".data) rfl panicDiff_head (by decide),
      isPrefixOf_false_of_head (p := "index ".data) rfl panicDiff_head (by decide),
      isPrefixOf_false_of_head (p := "--- ".data) rfl panicDiff_head (by decide),
      isPrefixOf_false_of_head (p := "+++ ".data) rfl panicDiff_head (by decide)]
  rfl

theorem atAt_panicDiff : rustStartsWith "@@".data panicDiff = false :=
  isPrefixOf_false_of_head (p := "@@".data) rfl panicDiff_head (by decide)

theorem split_by_files_panicDiff :
    split_by_files panicDiff = Except.error "No files found in diff" := by
  unfold split_by_files
  rw [rustLines_panicDiff]
  simp only [List.foldl_cons, List.foldl_nil]
  rw [show filesStep
      { chunks := [], current_file_content := [], current_file_name := [], in_file := false }
      panicDiff =
      { chunks := [], current_file_content := [], current_file_name := [], in_file := false }
    from by unfold filesStep; rw [isFileMarker_panicDiff]; rfl]
  rfl

theorem rustTrim_panicDiff_nl : rustTrim (panicDiff ++ ['\n']) = panicDiff :=
  rustTrim_append_newline panicDiff_head (by decide) panicDiff_getLast (by decide)

theorem split_by_hunks_panicDiff :
    split_by_hunks panicDiff = Except.ok
      { chunks := [{ content := panicDiff, description := "Hunk 0" }],
        total_size := byteLen panicDiff,
        split_method := "by_hunks" } := by
  unfold split_by_hunks
  rw [rustLines_panicDiff]
  simp only [List.foldl_cons, List.foldl_nil]
  rw [show hunksStep
      { chunks := [], current_chunk := [], current_file_header := [], hunk_count := 0 }
      panicDiff =
      { chunks := [], current_chunk := panicDiff ++ ['\n'], current_file_header := [],
        hunk_count := 0 }
    from by
      unfold hunksStep
      rw [isHeaderLine_panicDiff, atAt_panicDiff, isFileMarker_panicDiff]
      rfl]
  dsimp only
  have hcne : panicDiff ++ ['\n'] ≠ [] := by
    rw [panicDiff_cons, List.cons_append]
    exact List.cons_ne_nil _ _
  rw [if_pos hcne]
  rw [List.nil_append, List.nil_append]
  rw [if_neg (List.cons_ne_nil _ _)]
  rw [rustTrim_panicDiff_nl]
  rfl

theorem split_by_character_chunks_panicDiff :
    split_by_character_chunks panicDiff 4000 = none := by
  have hsplit : byteSplitAt panicDiff 4000 = none := by
    have h4000 : (4000 : Nat) = byteLen (List.replicate 3999 'a') + 1 := by
      rw [byteLen_replicate, show ('a').utf8Size = 1 from by decide]
    unfold panicDiff
    rw [h4000, byteSplitAt_append_byteLen]
    rw [show byteSplitAt (List.replicate 2501 'é') 1 = none from by
      rw [show (2501 : Nat) = 2500 + 1 from rfl, List.replicate_succ, byteSplitAt_cons_succ,
        if_neg (by decide)]]
    rfl
  unfold split_by_character_chunks
  rw [charChunksFuel_none_of_split_none panicDiff_ne_nil
    (by unfold panicDiff; simp only [List.length_append, List.length_replicate]; omega) hsplit]

/-- C10 is a code bug: the claim says the character-window strategies never
fail, i.e. slicing at the fixed byte offsets is always well-defined; but on
`panicDiff` (9001 bytes, no file or hunk markers) the half-threshold window
strategy slices at byte offset 4000, which falls inside a two-byte character,
and the Rust code PANICS (`byte index 4000 is not a char boundary`).  Here
`split_large_diff panicDiff = none` is the model of that panic: the function
neither succeeds nor returns its error. -/
theorem C10_multibyte_boundary_panic :
    needs_splitting panicDiff = true ∧ split_large_diff panicDiff = none := by
  have h9001 := byteLen_panicDiff
  have hns : needs_splitting panicDiff = true := by
    simp [needs_splitting, h9001, DIFF_SIZE_THRESHOLD]
  refine ⟨hns, ?_⟩
  unfold split_large_diff
  rw [if_neg (by simp [hns])]
  rw [show tryAttempt (split_by_files panicDiff) = none from by
    rw [split_by_files_panicDiff]; rfl]
  have hrv : resultValid
      { chunks := [{ content := panicDiff, description := "Hunk 0" }],
        total_size := byteLen panicDiff, split_method := "by_hunks" } = false := by
    simp only [resultValid, chunkValid, List.all_cons, List.all_nil, Bool.and_true,
      h9001, DIFF_SIZE_THRESHOLD]
    decide
  rw [show tryAttempt (split_by_hunks panicDiff) = none from by
    rw [split_by_hunks_panicDiff]
    simp only [tryAttempt]
    rw [hrv]
    exact if_neg (by decide)]
  rw [show DIFF_SIZE_THRESHOLD / 2 = 4000 from by norm_num [DIFF_SIZE_THRESHOLD]]
  rw [split_by_character_chunks_panicDiff]

@[simp] theorem joinNL_nil : joinNL [] = [] := rfl

theorem joinNL_cons (l : List Char) (ls : List (List Char)) :
    joinNL (l :: ls) = (l ++ ['\n']) ++ joinNL ls := by
  simp [joinNL]

/-- Group a line list into file sections: each section starts at a
`diff --git` marker line and extends to the next marker. -/
def groupSections : List (List Char) → List (List (List Char))
  | [] => []
  | l :: ls =>
    (l :: ls.takeWhile (fun x => !isFileMarker x)) ::
      groupSections (ls.dropWhile (fun x => !isFileMarker x))
termination_by ls => ls.length
decreasing_by
  have := (List.dropWhile_sublist (l := ls) (p := fun x => !isFileMarker x)).length_le
  simp only [List.length_cons]
  omega

theorem groupSections_flatten : ∀ (ls : List (List Char)), (groupSections ls).flatten = ls := by
  intro ls
  induction ls using groupSections.induct with
  | case1 => simp [groupSections]
  | case2 l ls ih =>
    rw [groupSections]
    simp only [List.flatten_cons, ih, List.cons_append]
    rw [List.takeWhile_append_dropWhile]

theorem dropWhile_head_marker {ls : List (List Char)} {y : List Char} {t : List (List Char)}
    (h : ls.dropWhile (fun x => !isFileMarker x) = y :: t) : isFileMarker y = true := by
  have := List.head?_dropWhile_not (fun x => !isFileMarker x) ls
  rw [h] at this
  simp at this
  exact this

theorem groupSections_valid : ∀ (ls : List (List Char)),
    (ls = [] ∨ isFileMarker (ls.headD []) = true) →
    ∀ sec ∈ groupSections ls, ∃ m body, sec = m :: body ∧ isFileMarker m = true ∧
      ∀ x ∈ body, isFileMarker x = false := by
  intro ls
  induction ls using groupSections.induct with
  | case1 => intro _ sec hsec; simp [groupSections] at hsec
  | case2 l ls ih =>
    intro hh sec hsec
    rcases hh with h | h
    · simp at h
    · rw [groupSections] at hsec
      simp only [List.headD_cons] at h
      rcases List.mem_cons.mp hsec with rfl | hsec'
      · refine ⟨l, ls.takeWhile (fun x => !isFileMarker x), rfl, h, ?_⟩
        intro x hx
        have := List.mem_takeWhile_imp hx
        simpa using this
      · have harg : (List.dropWhile (fun x => !isFileMarker x) ls = []) ∨
            isFileMarker ((List.dropWhile (fun x => !isFileMarker x) ls).headD []) = true := by
          rcases hd : ls.dropWhile (fun x => !isFileMarker x) with _ | ⟨y, t⟩
          · exact Or.inl rfl
          · right
            simp only [List.headD_cons]
            exact dropWhile_head_marker hd
        exact ih harg sec hsec'

theorem filesFlushChunks_true {st : FilesState} (hin : st.in_file = true)
    (hne : st.current_file_content ≠ []) :
    filesFlushChunks st = st.chunks ++
      [{ content := rustTrim st.current_file_content,
         description := "File: " ++ String.mk st.current_file_name }] := by
  unfold filesFlushChunks
  rw [if_pos ⟨hin, hne⟩]

theorem filesStep_nonmarker {st : FilesState} {l : List Char}
    (hml : isFileMarker l = false) (hin : st.in_file = true) :
    filesStep st l =
      { st with current_file_content := st.current_file_content ++ l ++ ['\n'] } := by
  unfold filesStep
  rw [if_neg (c := isFileMarker l = true) (by simp [hml])]
  rw [if_pos hin]

theorem filesStep_marker {st : FilesState} {l : List Char} (hml : isFileMarker l = true) :
    filesStep st l =
      { chunks := filesFlushChunks st, current_file_content := l ++ ['\n'],
        current_file_name := extract_file_name l, in_file := true } := by
  unfold filesStep
  rw [if_pos hml]
  dsimp only
  rw [if_pos rfl, List.nil_append]

theorem foldl_filesStep_body : ∀ (body : List (List Char)) (st : FilesState),
    st.in_file = true → (∀ l ∈ body, isFileMarker l = false) →
    List.foldl filesStep st body =
      { st with current_file_content := st.current_file_content ++ joinNL body } := by
  intro body
  induction body with
  | nil =>
    intro st hin hall
    simp
  | cons l rest ih =>
    intro st hin hall
    simp only [List.foldl_cons]
    rw [filesStep_nonmarker (hall l (by simp)) hin]
    rw [ih { st with current_file_content := st.current_file_content ++ l ++ ['\n'] }
      hin (fun x hx => hall x (by simp [hx]))]
    simp [joinNL_cons, List.append_assoc]

theorem foldl_filesStep_sections :
    ∀ (secs : List (List (List Char))) (st : FilesState),
      (∀ sec ∈ secs, ∃ m body, sec = m :: body ∧ isFileMarker m = true ∧
        ∀ x ∈ body, isFileMarker x = false) →
      st.in_file = true → st.current_file_content ≠ [] →
      (filesFlushChunks (List.foldl filesStep st secs.flatten)).map (fun c => c.content) =
        (filesFlushChunks st).map (fun c => c.content) ++
          secs.map (fun sec => rustTrim (joinNL sec)) := by
  intro secs
  induction secs with
  | nil =>
    intro st hval hin hne
    simp
  | cons sec secs' ih =>
    intro st hval hin hne
    obtain ⟨m, body, rfl, hm, hbody⟩ := hval sec (by simp)
    have hcur2 : ((m ++ ['\n']) ++ joinNL body) ≠ [] := by
      intro hx
      rcases List.append_eq_nil.mp hx with ⟨h1, -⟩
      rcases List.append_eq_nil.mp h1 with ⟨-, h2⟩
      simp at h2
    have hstep :
        List.foldl filesStep st (((m :: body) :: secs').flatten) =
        List.foldl filesStep
          { chunks := filesFlushChunks st,
            current_file_content := (m ++ ['\n']) ++ joinNL body,
            current_file_name := extract_file_name m,
            in_file := true } secs'.flatten := by
      simp only [List.flatten_cons, List.foldl_append, List.foldl_cons]
      rw [filesStep_marker hm]
      rw [foldl_filesStep_body body
        { chunks := filesFlushChunks st, current_file_content := m ++ ['\n'],
          current_file_name := extract_file_name m, in_file := true } rfl hbody]
    rw [hstep]
    rw [ih { chunks := filesFlushChunks st,
             current_file_content := (m ++ ['\n']) ++ joinNL body,
             current_file_name := extract_file_name m, in_file := true }
      (fun s hs => hval s (by simp [hs])) rfl hcur2]
    rw [@filesFlushChunks_true
      { chunks := filesFlushChunks st,
        current_file_content := (m ++ ['\n']) ++ joinNL body,
        current_file_name := extract_file_name m, in_file := true } rfl hcur2]
    rw [filesFlushChunks_true hin hne]
    simp only [List.map_append, List.map_cons, List.map_nil, joinNL_cons]
    simp [List.append_assoc]

theorem breakNl_fst_noNl : ∀ (s : List Char) (l : List Char) (r : Option (List Char)),
    breakNl s = (l, r) → ∀ c ∈ l, c ≠ '\n' := by
  intro s
  induction s with
  | nil =>
    intro l r h
    simp [breakNl] at h
    rw [h.1]
    simp
  | cons c rest ih =>
    intro l r h
    by_cases hc : c = '\n'
    · simp only [breakNl, if_pos hc] at h
      simp only [Prod.mk.injEq] at h
      rw [← h.1]
      simp
    · simp only [breakNl, if_neg hc] at h
      rcases hr : breakNl rest with ⟨l', r'⟩
      rw [hr] at h
      simp only [Prod.mk.injEq] at h
      rw [← h.1]
      intro x hx
      rcases List.mem_cons.mp hx with rfl | hx'
      · exact hc
      · exact ih l' r' hr x hx'

theorem stripCR_subset {l : List Char} : ∀ c ∈ stripCR l, c ∈ l := by
  intro c hc
  unfold stripCR at hc
  split at hc
  · exact List.dropLast_subset _ hc
  · exact hc

theorem rustLinesFuel_no_newline : ∀ (fuel : Nat) (s : List Char),
    ∀ l ∈ rustLinesFuel fuel s, ∀ c ∈ l, c ≠ '\n' := by
  intro fuel
  induction fuel with
  | zero =>
    intro s l hl
    cases s with
    | nil => simp [rustLinesFuel] at hl
    | cons c t => simp [rustLinesFuel] at hl
  | succ f ih =>
    intro s l hl
    cases s with
    | nil => simp [rustLinesFuel] at hl
    | cons c t =>
      simp only [rustLinesFuel] at hl
      rcases hb : breakNl (c :: t) with ⟨line, _ | rest⟩ <;> rw [hb] at hl
      · simp at hl
        subst hl
        exact breakNl_fst_noNl (c :: t) l none hb
      · rcases List.mem_cons.mp hl with rfl | hl'
        · intro x hx
          exact breakNl_fst_noNl (c :: t) line (some rest) hb x (stripCR_subset x hx)
        · exact ih rest l hl'

theorem rustLines_no_newline (s : List Char) : ∀ l ∈ rustLines s, ∀ c ∈ l, c ≠ '\n' :=
  rustLinesFuel_no_newline s.length s

theorem breakNl_cons_of_ne {c : Char} {s : List Char} (hc : c ≠ '\n') :
    breakNl (c :: s) = (c :: (breakNl s).1, (breakNl s).2) := by
  simp only [breakNl, if_neg hc]

theorem breakNl_append_newline : ∀ (a r : List Char), (∀ c ∈ a, c ≠ '\n') →
    breakNl (a ++ '\n' :: r) = (a, some r) := by
  intro a
  induction a with
  | nil => intro r h; simp [breakNl]
  | cons c t ih =>
    intro r h
    have hc : c ≠ '\n' := h c (by simp)
    rw [List.cons_append, breakNl_cons_of_ne hc,
      ih r (fun x hx => h x (by simp [hx]))]

theorem stripCR_eq_self {l : List Char} (h : l.getLast? ≠ some '\r') : stripCR l = l := by
  unfold stripCR
  rw [if_neg h]

theorem joinSep_ne_nil : ∀ (sec : List (List Char)), sec ≠ [] → (∀ l ∈ sec, l ≠ []) →
    joinSep sec ≠ [] := by
  intro sec
  match sec with
  | [] => intro h; exact absurd rfl h
  | [a] => intro _ hall; simpa using hall a (by simp)
  | a :: b :: t =>
    intro _ hall
    simp only [joinSep]
    intro hx
    rcases List.append_eq_nil.mp hx with ⟨-, h2⟩
    simp at h2

theorem rustLines_joinSep : ∀ (sec : List (List Char)), sec ≠ [] →
    (∀ l ∈ sec, l ≠ [] ∧ ('\n' ∉ l) ∧ l.getLast? ≠ some '\r') →
    rustLines (joinSep sec) = sec := by
  intro sec
  match sec with
  | [] => intro h; exact absurd rfl h
  | [a] =>
    intro _ hall
    obtain ⟨hne, hnl, -⟩ := hall a (by simp)
    simp only [joinSep]
    exact rustLines_noNl hne (fun c hc hceq => hnl (hceq ▸ hc))
  | a :: b :: t =>
    intro _ hall
    obtain ⟨hane, hanl, hacr⟩ := hall a (by simp)
    have hbt : ∀ l ∈ b :: t, l ≠ [] ∧ ('\n' ∉ l) ∧ l.getLast? ≠ some '\r' :=
      fun l hl => hall l (by simp [hl])
    have hjoin_ne : joinSep (b :: t) ≠ [] :=
      joinSep_ne_nil (b :: t) (by simp) (fun l hl => (hbt l hl).1)
    simp only [joinSep]
    have hbrk : breakNl (a ++ '\n' :: joinSep (b :: t)) = (a, some (joinSep (b :: t))) :=
      breakNl_append_newline a (joinSep (b :: t)) (fun c hc hceq => hanl (hceq ▸ hc))
    have hne2 : a ++ '\n' :: joinSep (b :: t) ≠ [] := by
      intro hx
      rcases List.append_eq_nil.mp hx with ⟨-, h2⟩
      simp at h2
    rw [rustLines_of_breakNl_some hne2 hbrk]
    rw [stripCR_eq_self hacr]
    rw [rustLines_joinSep (b :: t) (by simp) hbt]

theorem joinNL_eq_joinSep : ∀ (sec : List (List Char)), sec ≠ [] →
    joinNL sec = joinSep sec ++ ['\n'] := by
  intro sec
  match sec with
  | [] => intro h; exact absurd rfl h
  | [a] => intro _; simp [joinNL, joinSep]
  | a :: b :: t =>
    intro _
    rw [joinNL_cons, joinNL_eq_joinSep (b :: t) (by simp)]
    simp only [joinSep]
    simp [List.append_assoc]

theorem joinSep_head? : ∀ (sec : List (List Char)) (m : List Char) (rest : List (List Char)),
    sec = m :: rest → m ≠ [] → (joinSep sec).head? = m.head? := by
  intro sec m rest hsec hm
  subst hsec
  cases rest with
  | nil => rfl
  | cons b t =>
    simp only [joinSep]
    cases m with
    | nil => exact absurd rfl hm
    | cons c cs => rfl

theorem joinSep_getLast? : ∀ (sec : List (List Char)), sec ≠ [] → (∀ l ∈ sec, l ≠ []) →
    (joinSep sec).getLast? = (sec.getLastD []).getLast? := by
  intro sec
  match sec with
  | [] => intro h; exact absurd rfl h
  | [a] => intro _ _; rfl
  | a :: b :: t =>
    intro _ hall
    have hbt : ∀ l ∈ b :: t, l ≠ [] := fun l hl => hall l (by simp [hl])
    have hjoin_ne : joinSep (b :: t) ≠ [] := joinSep_ne_nil (b :: t) (by simp) hbt
    simp only [joinSep]
    rw [List.getLast?_append]
    rw [show ('\n' :: joinSep (b :: t)).getLast? = (joinSep (b :: t)).getLast? from by
      rcases hj : joinSep (b :: t) with _ | ⟨y, ys⟩
      · exact absurd hj hjoin_ne
      · simp]
    rw [joinSep_getLast? (b :: t) (by simp) hbt]
    have : ((b :: t).getLastD []).getLast?.isSome = true := by
      rw [List.getLast?_isSome]
      have hlast_mem : (b :: t).getLastD [] ∈ b :: t := by
        rw [List.getLastD_eq_getLast?]
        rcases hg : (b :: t).getLast? with _ | y
        · simp [List.getLast?_eq_none_iff] at hg
        · simp only [Option.getD_some]
          exact List.mem_of_getLast?_eq_some hg
      exact hbt _ hlast_mem
    rcases ho : ((b :: t).getLastD []).getLast? with _ | y
    · rw [ho] at this; simp at this
    · simp only [List.getLastD_cons] at ho ⊢
      rw [ho]
      rfl

theorem marker_head {m : List Char} (h : isFileMarker m = true) : m.head? = some 'd' := by
  unfold isFileMarker rustStartsWith at h
  rw [List.isPrefixOf_iff_prefix] at h
  obtain ⟨t, ht⟩ := h
  rw [← ht]
  rfl

theorem getLastD_mem {sec : List (List Char)} (hne : sec ≠ []) : sec.getLastD [] ∈ sec := by
  rw [List.getLastD_eq_getLast?]
  rcases hg : sec.getLast? with _ | y
  · rw [List.getLast?_eq_none_iff] at hg
    exact absurd hg hne
  · simp only [Option.getD_some]
    exact List.mem_of_getLast?_eq_some hg

theorem section_lines_roundtrip (sec : List (List Char))
    (hne : sec ≠ [])
    (hm : isFileMarker (sec.headD []) = true)
    (hok : ∀ l ∈ sec, l ≠ [] ∧ rustIsWhitespace (l.getLastD ' ') = false)
    (hnl : ∀ l ∈ sec, ∀ c ∈ l, c ≠ '\n') :
    rustLines (rustTrim (joinNL sec)) = sec := by
  rcases hsec : sec with _ | ⟨m, rest⟩
  · exact absurd hsec hne
  subst hsec
  have hm' : isFileMarker m = true := by simpa using hm
  have hmne : m ≠ [] := (hok m (by simp)).1
  have hhead : (joinSep (m :: rest)).head? = some 'd' := by
    rw [joinSep_head? (m :: rest) m rest rfl hmne]
    exact marker_head hm'
  have hLmem : (m :: rest).getLastD [] ∈ m :: rest := getLastD_mem (by simp)
  obtain ⟨hLne, hLws⟩ := hok _ hLmem
  obtain ⟨y, hy⟩ : ∃ y, ((m :: rest).getLastD []).getLast? = some y := by
    rcases hg : ((m :: rest).getLastD []).getLast? with _ | y
    · rw [List.getLast?_eq_none_iff] at hg
      exact absurd hg hLne
    · exact ⟨y, rfl⟩
  have hyws : rustIsWhitespace y = false := by
    have : ((m :: rest).getLastD []).getLastD ' ' = y := by
      rw [List.getLastD_eq_getLast?, hy]
      rfl
    rw [← this]
    exact hLws
  have hglast : (joinSep (m :: rest)).getLast? = some y := by
    rw [joinSep_getLast? (m :: rest) (by simp) (fun l hl => (hok l hl).1)]
    exact hy
  have htrim : rustTrim (joinNL (m :: rest)) = joinSep (m :: rest) := by
    rw [joinNL_eq_joinSep (m :: rest) (by simp)]
    exact rustTrim_append_newline hhead (by decide) hglast hyws
  rw [htrim]
  apply rustLines_joinSep (m :: rest) (by simp)
  intro l hl
  refine ⟨(hok l hl).1, ?_, ?_⟩
  · intro hmem
    exact (hnl l hl '\n' hmem) rfl
  · intro hcr
    have : l.getLastD ' ' = '\r' := by
      rw [List.getLastD_eq_getLast?, hcr]
      rfl
    have hws := (hok l hl).2
    rw [this] at hws
    simp [rustIsWhitespace] at hws

/-- C5 (amended, by-file part): when the first line of the diff is a
`diff --git` marker and every line is nonempty with a non-whitespace final
character (so the per-section `trim` removes exactly the trailing newline and
no line is dropped before the first marker), the by-file strategy succeeds
and the concatenation of the chunks' line lists is exactly the line list of
the diff: every line appears in exactly one chunk, in original relative
order.  (Without these conditions lines ARE lost: lines before the first
marker are dropped, and trailing whitespace-only content is trimmed away;
the by-hunk strategy moreover repeats header lines across chunks, see C9.) -/
theorem C5_by_files_amended (d : List Char)
    (hfirst : isFileMarker ((rustLines d).headD []) = true)
    (hok : ∀ l ∈ rustLines d, l ≠ [] ∧ rustIsWhitespace (l.getLastD ' ') = false) :
    ∃ r, split_by_files d = Except.ok r ∧
      (r.chunks.map (fun c => rustLines c.content)).flatten = rustLines d := by
  rcases hl : rustLines d with _ | ⟨l0, rest⟩
  · rw [hl] at hfirst
    exact absurd hfirst (by decide)
  rw [hl] at hfirst hok
  have hfirst' : isFileMarker l0 = true := by simpa using hfirst
  have hnl : ∀ l ∈ l0 :: rest, ∀ c ∈ l, c ≠ '\n' := by
    intro l hli
    exact rustLines_no_newline d l (by rw [hl]; exact hli)
  have hgroup : groupSections (l0 :: rest) =
      (l0 :: rest.takeWhile (fun x => !isFileMarker x)) ::
        groupSections (rest.dropWhile (fun x => !isFileMarker x)) := by
    rw [groupSections]
  have hflat2 : (groupSections (rest.dropWhile (fun x => !isFileMarker x))).flatten =
      rest.dropWhile (fun x => !isFileMarker x) :=
    groupSections_flatten _
  have hvalid2 : ∀ sec ∈ groupSections (rest.dropWhile (fun x => !isFileMarker x)),
      ∃ m body, sec = m :: body ∧ isFileMarker m = true ∧
        ∀ x ∈ body, isFileMarker x = false := by
    apply groupSections_valid
    rcases hd : rest.dropWhile (fun x => !isFileMarker x) with _ | ⟨y, t⟩
    · exact Or.inl rfl
    · right
      simp only [List.headD_cons]
      exact dropWhile_head_marker hd
  have hbody1_nm : ∀ x ∈ rest.takeWhile (fun x => !isFileMarker x), isFileMarker x = false := by
    intro x hx
    have := List.mem_takeWhile_imp hx
    simpa using this
  have hflush0 : filesFlushChunks
      { chunks := [], current_file_content := [], current_file_name := [], in_file := false }
      = [] := by
    unfold filesFlushChunks
    rw [if_neg (by simp)]
  have hcur2ne : ((l0 ++ ['\n']) ++ joinNL (rest.takeWhile (fun x => !isFileMarker x))) ≠ [] := by
    intro hx
    rcases List.append_eq_nil.mp hx with ⟨h1, -⟩
    rcases List.append_eq_nil.mp h1 with ⟨-, h2⟩
    simp at h2
  have hfold : List.foldl filesStep
      { chunks := [], current_file_content := [], current_file_name := [], in_file := false }
      (l0 :: rest) =
      List.foldl filesStep
        { chunks := [],
          current_file_content := (l0 ++ ['\n']) ++ joinNL (rest.takeWhile (fun x => !isFileMarker x)),
          current_file_name := extract_file_name l0, in_file := true }
        (groupSections (rest.dropWhile (fun x => !isFileMarker x))).flatten := by
    have hsplit_rest : rest = rest.takeWhile (fun x => !isFileMarker x) ++
        (groupSections (rest.dropWhile (fun x => !isFileMarker x))).flatten := by
      rw [hflat2, List.takeWhile_append_dropWhile]
    rw [List.foldl_cons, filesStep_marker hfirst', hflush0]
    conv_lhs => rw [hsplit_rest]
    rw [List.foldl_append]
    rw [foldl_filesStep_body (rest.takeWhile (fun x => !isFileMarker x))
      { chunks := [], current_file_content := l0 ++ ['\n'],
        current_file_name := extract_file_name l0, in_file := true } rfl hbody1_nm]
  have hmain := foldl_filesStep_sections
    (groupSections (rest.dropWhile (fun x => !isFileMarker x)))
    { chunks := [],
      current_file_content := (l0 ++ ['\n']) ++ joinNL (rest.takeWhile (fun x => !isFileMarker x)),
      current_file_name := extract_file_name l0, in_file := true }
    hvalid2 rfl hcur2ne
  have hcontents : (filesFlushChunks (List.foldl filesStep
      { chunks := [], current_file_content := [], current_file_name := [], in_file := false }
      (l0 :: rest))).map (fun c => c.content) =
      ((l0 :: rest.takeWhile (fun x => !isFileMarker x)) ::
        groupSections (rest.dropWhile (fun x => !isFileMarker x))).map
          (fun sec => rustTrim (joinNL sec)) := by
    rw [hfold, hmain]
    rw [@filesFlushChunks_true
      { chunks := [],
        current_file_content := (l0 ++ ['\n']) ++ joinNL (rest.takeWhile (fun x => !isFileMarker x)),
        current_file_name := extract_file_name l0, in_file := true } rfl hcur2ne]
    simp only [List.map_cons, List.nil_append, List.map_nil]
    rw [← joinNL_cons]
    rw [List.singleton_append]
  have hchne : filesFlushChunks (List.foldl filesStep
      { chunks := [], current_file_content := [], current_file_name := [], in_file := false }
      (l0 :: rest)) ≠ [] := by
    intro hx
    rw [hx] at hcontents
    simp at hcontents
  refine ⟨⟨filesFlushChunks (List.foldl filesStep
      { chunks := [], current_file_content := [], current_file_name := [], in_file := false }
      (l0 :: rest)), byteLen d, "by_files"⟩, ?_, ?_⟩
  · unfold split_by_files
    rw [hl]
    rw [if_neg hchne]
  · show ((filesFlushChunks (List.foldl filesStep
        { chunks := [], current_file_content := [], current_file_name := [], in_file := false }
        (l0 :: rest))).map (fun c => rustLines c.content)).flatten = l0 :: rest
    rw [show (filesFlushChunks (List.foldl filesStep
        { chunks := [], current_file_content := [], current_file_name := [], in_file := false }
        (l0 :: rest))).map (fun c => rustLines c.content) =
        ((filesFlushChunks (List.foldl filesStep
          { chunks := [], current_file_content := [], current_file_name := [], in_file := false }
          (l0 :: rest))).map (fun c => c.content)).map (fun l => rustLines l) from by
      rw [List.map_map]
      rfl]
    rw [hcontents]
    have hall_valid : ∀ sec ∈ (l0 :: rest.takeWhile (fun x => !isFileMarker x)) ::
        groupSections (rest.dropWhile (fun x => !isFileMarker x)),
        ∃ m body, sec = m :: body ∧ isFileMarker m = true ∧
          ∀ x ∈ body, isFileMarker x = false := by
      intro sec hsec
      rcases List.mem_cons.mp hsec with rfl | hsec'
      · exact ⟨l0, _, rfl, hfirst', hbody1_nm⟩
      · exact hvalid2 sec hsec'
    have hmem_lines : ∀ sec ∈ (l0 :: rest.takeWhile (fun x => !isFileMarker x)) ::
        groupSections (rest.dropWhile (fun x => !isFileMarker x)),
        ∀ l ∈ sec, l ∈ l0 :: rest := by
      intro sec hsec l hlsec
      have hmemf := List.mem_flatten.mpr ⟨sec, hsec, hlsec⟩
      rw [← hgroup] at hmemf
      rw [groupSections_flatten (l0 :: rest)] at hmemf
      exact hmemf
    have hcongr := List.map_congr_left
      (l := (l0 :: rest.takeWhile (fun x => !isFileMarker x)) ::
        groupSections (rest.dropWhile (fun x => !isFileMarker x)))
      (f := fun sec => rustLines (rustTrim (joinNL sec))) (g := fun sec => sec)
      (fun sec hsec => by
        obtain ⟨m, body, hsec_eq, hm, -⟩ := hall_valid sec hsec
        exact section_lines_roundtrip sec (by rw [hsec_eq]; simp)
          (by rw [hsec_eq]; simpa using hm)
          (fun l hli => hok l (hmem_lines sec hsec l hli))
          (fun l hli => hnl l (hmem_lines sec hsec l hli)))
    rw [List.map_map]
    rw [show ((fun l => rustLines l) ∘ fun sec => rustTrim (joinNL sec)) =
        fun sec => rustLines (rustTrim (joinNL sec)) from rfl]
    rw [hcongr]
    rw [List.map_id']
    rw [← hgroup, groupSections_flatten]

/-- A diff with one line of text before the first `diff --git` marker. -/
def ceDiff : List Char := "x\ndiff --git a/f b/f\ny".data

/-- C5 counterexample: the by-file strategy drops lines that precede the
first `diff --git` marker.  On `ceDiff` the split succeeds with a single
chunk, the line `x` is a line of the input, yet no chunk contains it — so it
is not the case that every line of the diff appears in exactly one chunk. -/
theorem C5_counterexample_dropped_line :
    split_by_files ceDiff = Except.ok
      { chunks := [{ content := "diff --git a/f b/f\ny".data, description := "File: f" }],
        total_size := byteLen ceDiff, split_method := "by_files" } ∧
    "x".data ∈ rustLines ceDiff ∧
    "x".data ∉ rustLines "diff --git a/f b/f\ny".data := by
  refine ⟨by decide, by decide, by decide⟩

/-- A well-formed single-file diff used as the C5 witness input. -/
def wDiff : List Char := "diff --git a/f b/f\nx".data

theorem C5_by_files_amended_witness :
    ∃ r, split_by_files wDiff = Except.ok r ∧
      (r.chunks.map (fun c => rustLines c.content)).flatten = rustLines wDiff :=
  C5_by_files_amended wDiff (by decide) (by decide)

theorem hunksStep_header {st : HunksState} {l : List Char} (h : isHeaderLine l = true) :
    hunksStep st l =
      { st with current_file_header := st.current_file_header ++ l ++ ['\n'] } := by
  unfold hunksStep
  rw [if_pos h]

theorem hunksStep_atAt_push {st : HunksState} {l : List Char}
    (hh : isHeaderLine l = false) (ha : rustStartsWith "@@".data l = true)
    (hc : st.current_chunk ≠ []) :
    hunksStep st l =
      { chunks := st.chunks ++
          [{ content := st.current_file_header ++ rustTrim st.current_chunk,
             description := "Hunk " ++ Nat.repr st.hunk_count }],
        current_chunk := l ++ ['\n'],
        current_file_header := st.current_file_header,
        hunk_count := st.hunk_count + 1 } := by
  unfold hunksStep
  rw [if_neg (by simp [hh]), if_pos ha, if_pos hc]
  rfl

theorem hunksStep_atAt_nil {st : HunksState} {l : List Char}
    (hh : isHeaderLine l = false) (ha : rustStartsWith "@@".data l = true)
    (hc : st.current_chunk = []) :
    hunksStep st l =
      { st with hunk_count := st.hunk_count + 1,
                current_chunk := st.current_chunk ++ l ++ ['\n'] } := by
  unfold hunksStep
  rw [if_neg (by simp [hh]), if_pos ha, if_neg (by simp [hc])]

theorem hunksStep_other {st : HunksState} {l : List Char}
    (hh : isHeaderLine l = false) (ha : rustStartsWith "@@".data l = false) :
    hunksStep st l = { st with current_chunk := st.current_chunk ++ l ++ ['\n'] } := by
  have hm : isFileMarker l = false := by
    unfold isHeaderLine at hh
    unfold isFileMarker
    rcases Bool.or_eq_false_iff.mp hh with ⟨h1, -⟩
    rcases Bool.or_eq_false_iff.mp h1 with ⟨h2, -⟩
    rcases Bool.or_eq_false_iff.mp h2 with ⟨h3, -⟩
    exact h3
  unfold hunksStep
  rw [if_neg (by simp [hh]), if_neg (by simp [ha]), if_pos (by simp [hm])]

theorem joinNL_append (a b : List (List Char)) :
    joinNL (a ++ b) = joinNL a ++ joinNL b := by
  simp [joinNL]

theorem joinNL_take_prefix (k : Nat) (ls : List (List Char)) :
    joinNL (ls.take k) <+: joinNL ls :=
  ⟨joinNL (ls.drop k), by rw [← joinNL_append, List.take_append_drop]⟩

/-- Invariant of the `split_by_hunks` loop: `hdrs` is the list of header
lines seen so far (so `current_file_header` is their newline-join); the
pending chunk body is the newline-join of non-header lines of the diff;
every emitted chunk's content is the join of the first `k` header lines seen
up to its emission followed by the trimmed join of a nonempty list of
non-header lines; and chunk descriptions carry consecutive hunk numbers. -/
def HunksInv (all hdrs : List (List Char)) (st : HunksState) : Prop :=
  st.current_file_header = joinNL hdrs ∧
  (∃ cur, st.current_chunk = joinNL cur ∧
    ∀ l ∈ cur, l ∈ all ∧ isHeaderLine l = false) ∧
  (∀ c ∈ st.chunks, ∃ k bl, k ≤ hdrs.length ∧
    c.content = joinNL (hdrs.take k) ++ rustTrim (joinNL bl) ∧ bl ≠ [] ∧
    ∀ l ∈ bl, l ∈ all ∧ isHeaderLine l = false) ∧
  ∃ a, st.chunks.map (fun c => c.description) =
      (List.range' a st.chunks.length).map (fun i => "Hunk " ++ Nat.repr i) ∧
    (st.chunks ≠ [] → st.hunk_count = a + st.chunks.length ∧ st.current_chunk ≠ [])

theorem hunksStep_inv {all hdrs : List (List Char)} {st : HunksState} {l : List Char}
    (hl : l ∈ all) (hinv : HunksInv all hdrs st) :
    HunksInv all (if isHeaderLine l = true then hdrs ++ [l] else hdrs) (hunksStep st l) := by
  obtain ⟨hhd, ⟨cur, hcur, hcurp⟩, hpre, a, hdesc, hcnt⟩ := hinv
  by_cases hh : isHeaderLine l = true
  · rw [if_pos hh, hunksStep_header hh]
    refine ⟨?_, ⟨cur, hcur, hcurp⟩, ?_, a, hdesc, hcnt⟩
    · rw [hhd, joinNL_append, joinNL_cons, joinNL_nil, List.append_nil, List.append_assoc]
    · intro c hc
      obtain ⟨k, bl, hk, hcb, hbne, hblp⟩ := hpre c hc
      refine ⟨k, bl, ?_, ?_, hbne, hblp⟩
      · simp only [List.length_append, List.length_cons, List.length_nil]
        omega
      · rw [List.take_append_of_le_length hk]
        exact hcb
  · have hh' : isHeaderLine l = false := by simpa using hh
    rw [if_neg hh]
    by_cases hc : rustStartsWith "@@".data l = true
    · by_cases hcc : st.current_chunk = []
      · rw [hunksStep_atAt_nil hh' hc hcc]
        have hchunks : st.chunks = [] := by
          by_contra hne
          exact (hcnt hne).2 hcc
        refine ⟨hhd, ⟨[l], ?_, ?_⟩, hpre, a, hdesc, ?_⟩
        · rw [hcc, List.nil_append, joinNL_cons, joinNL_nil, List.append_nil]
        · intro x hx
          rw [List.mem_singleton] at hx
          subst hx
          exact ⟨hl, hh'⟩
        · intro hne
          simp only at hne
          exact absurd hchunks hne
      · rw [hunksStep_atAt_push hh' hc hcc]
        have hcurne : cur ≠ [] := by
          intro hx
          apply hcc
          rw [hcur, hx, joinNL_nil]
        refine ⟨hhd, ⟨[l], ?_, ?_⟩, ?_, ?_⟩
        · rw [joinNL_cons, joinNL_nil, List.append_nil]
        · intro x hx
          rw [List.mem_singleton] at hx
          subst hx
          exact ⟨hl, hh'⟩
        · intro c hcm
          simp only [List.mem_append, List.mem_singleton] at hcm
          rcases hcm with hcm | rfl
          · exact hpre c hcm
          · refine ⟨hdrs.length, cur, le_refl _, ?_, hcurne, hcurp⟩
            rw [List.take_length, hhd, hcur]
        · by_cases hch : st.chunks = []
          · refine ⟨st.hunk_count, ?_, ?_⟩
            · simp [hch]
            · intro _
              constructor
              · simp [hch]
              · simp
          · obtain ⟨hcount, -⟩ := hcnt hch
            refine ⟨a, ?_, ?_⟩
            · simp only [List.map_append, List.length_append, List.map_cons, List.map_nil,
                List.length_cons, List.length_nil]
              rw [hdesc, hcount]
              rw [List.range'_1_concat]
              simp
            · intro _
              constructor
              · simp only [List.length_append, List.length_cons, List.length_nil]
                omega
              · simp
    · have hc' : rustStartsWith "@@".data l = false := by simpa using hc
      rw [hunksStep_other hh' hc']
      refine ⟨hhd, ⟨cur ++ [l], ?_, ?_⟩, hpre, a, hdesc, ?_⟩
      · rw [joinNL_append, joinNL_cons, joinNL_nil, List.append_nil, ← hcur,
          List.append_assoc]
      · intro x hx
        rcases List.mem_append.mp hx with hx | hx
        · exact hcurp x hx
        · rw [List.mem_singleton] at hx
          subst hx
          exact ⟨hl, hh'⟩
      · intro hne
        simp only at hne
        obtain ⟨hcount, hcur2⟩ := hcnt hne
        refine ⟨hcount, ?_⟩
        intro hx
        rcases List.append_eq_nil.mp hx with ⟨h1, -⟩
        rcases List.append_eq_nil.mp h1 with ⟨h2, -⟩
        exact hcur2 h2

theorem foldl_hunksStep_inv : ∀ (lines all : List (List Char)) (st : HunksState)
    (hdrs : List (List Char)),
    (∀ l ∈ lines, l ∈ all) →
    HunksInv all hdrs st →
    HunksInv all (hdrs ++ lines.filter isHeaderLine) (List.foldl hunksStep st lines) := by
  intro lines
  induction lines with
  | nil =>
    intro all st hdrs _ hinv
    simpa using hinv
  | cons l rest ih =>
    intro all st hdrs hsub hinv
    simp only [List.foldl_cons]
    have hl : l ∈ all := hsub l (List.mem_cons_self _ _)
    have hsub' : ∀ x ∈ rest, x ∈ all := fun x hx => hsub x (List.mem_cons_of_mem _ hx)
    have hstep := hunksStep_inv hl hinv
    by_cases hh : isHeaderLine l = true
    · rw [if_pos hh] at hstep
      have := ih all (hunksStep st l) (hdrs ++ [l]) hsub' hstep
      rw [List.filter_cons, if_pos hh]
      simpa [List.append_assoc] using this
    · rw [if_neg hh] at hstep
      have := ih all (hunksStep st l) hdrs hsub' hstep
      rw [List.filter_cons, if_neg (by simpa using hh)]
      exact this

/-- C9 (amended): in the by-hunk strategy, every chunk's content is exactly
the newline-join of the first `k` header lines of the WHOLE diff — the
header accumulation at the chunk's emission, a prefix of the concatenation
of ALL header lines of the diff, NOT just the headers of the file the hunk
belongs to (the accumulator is never reset at file boundaries, and since a
hunk is only flushed when the next `@@` line, possibly of the next file, or
the end of input is reached, a chunk can even carry headers of the
following file) — followed by the trimmed newline-join of a nonempty list
of non-header lines of the diff; and chunk descriptions are numbered
consecutively across the whole diff. -/
theorem C9_by_hunks_amended {d : List Char} {r : SplitDiffResult}
    (h : split_by_hunks d = Except.ok r) :
    (∀ c ∈ r.chunks, ∃ k bl,
      c.content = joinNL (((rustLines d).filter isHeaderLine).take k) ++
        rustTrim (joinNL bl) ∧
      joinNL (((rustLines d).filter isHeaderLine).take k) <+:
        joinNL ((rustLines d).filter isHeaderLine) ∧
      bl ≠ [] ∧ ∀ l ∈ bl, l ∈ rustLines d ∧ isHeaderLine l = false) ∧
    (∃ a, r.chunks.map (fun c => c.description) =
      (List.range' a r.chunks.length).map (fun i => "Hunk " ++ Nat.repr i)) := by
  have hinv0 : HunksInv (rustLines d) []
      { chunks := [], current_chunk := [], current_file_header := [], hunk_count := 0 } :=
    ⟨rfl, ⟨[], rfl, by simp⟩, by simp, 0, by simp, by simp⟩
  have hinv := foldl_hunksStep_inv (rustLines d) (rustLines d)
    { chunks := [], current_chunk := [], current_file_header := [], hunk_count := 0 }
    [] (fun l hl => hl) hinv0
  rw [List.nil_append] at hinv
  obtain ⟨hhd, ⟨cur, hcureq, hcurp⟩, hpre, a, hdesc, hcnt⟩ := hinv
  unfold split_by_hunks at h
  dsimp only at h
  by_cases hcc : (List.foldl hunksStep
      { chunks := [], current_chunk := [], current_file_header := [], hunk_count := 0 }
      (rustLines d)).current_chunk = []
  · rw [if_neg (c := (List.foldl hunksStep
        { chunks := [], current_chunk := [], current_file_header := [], hunk_count := 0 }
        (rustLines d)).current_chunk ≠ []) (by simp [hcc])] at h
    by_cases hch : (List.foldl hunksStep
        { chunks := [], current_chunk := [], current_file_header := [], hunk_count := 0 }
        (rustLines d)).chunks = []
    · rw [if_pos hch] at h
      simp at h
    · exact absurd hcc (hcnt hch).2
  · rw [if_pos (c := (List.foldl hunksStep
        { chunks := [], current_chunk := [], current_file_header := [], hunk_count := 0 }
        (rustLines d)).current_chunk ≠ []) hcc] at h
    have hne2 : (List.foldl hunksStep
        { chunks := [], current_chunk := [], current_file_header := [], hunk_count := 0 }
        (rustLines d)).chunks ++
        [{ content := (List.foldl hunksStep
            { chunks := [], current_chunk := [], current_file_header := [], hunk_count := 0 }
            (rustLines d)).current_file_header ++
            rustTrim (List.foldl hunksStep
              { chunks := [], current_chunk := [], current_file_header := [], hunk_count := 0 }
              (rustLines d)).current_chunk,
           description := "Hunk " ++ Nat.repr (List.foldl hunksStep
            { chunks := [], current_chunk := [], current_file_header := [], hunk_count := 0 }
            (rustLines d)).hunk_count }] ≠ [] := by
      intro hx
      rcases List.append_eq_nil.mp hx with ⟨-, h2⟩
      simp at h2
    rw [if_neg hne2] at h
    simp only [Except.ok.injEq] at h
    subst h
    constructor
    · intro c hc
      simp only [List.mem_append, List.mem_singleton] at hc
      rcases hc with hc | rfl
      · obtain ⟨k, bl, hk, hcb, hbne, hblp⟩ := hpre c hc
        exact ⟨k, bl, hcb, joinNL_take_prefix k _, hbne, hblp⟩
      · refine ⟨((rustLines d).filter isHeaderLine).length, cur, ?_,
          joinNL_take_prefix _ _, ?_, hcurp⟩
        · rw [List.take_length, hhd, hcureq]
        · intro hx
          apply hcc
          rw [hcureq, hx, joinNL_nil]
    · by_cases hch : (List.foldl hunksStep
          { chunks := [], current_chunk := [], current_file_header := [], hunk_count := 0 }
          (rustLines d)).chunks = []
      · refine ⟨(List.foldl hunksStep
          { chunks := [], current_chunk := [], current_file_header := [], hunk_count := 0 }
          (rustLines d)).hunk_count, ?_⟩
        simp [hch]
      · obtain ⟨hcount, -⟩ := hcnt hch
        refine ⟨a, ?_⟩
        simp only [List.map_append, List.length_append, List.map_cons, List.map_nil,
          List.length_cons, List.length_nil]
        rw [hdesc, hcount, List.range'_1_concat]
        simp

/-- A two-file diff with one hunk per file, used for the C9 counterexample. -/
def hunkDiff2 : List Char :=
  ("diff --git a/f1 b/f1\nindex 1..2 100644\n--- a/f1\n+++ b/f1\n@@ -1 +1 @@\n-x\n+y\n" ++
   "diff --git a/f2 b/f2\nindex 3..4 100644\n--- a/f2\n+++ b/f2\n@@ -1 +1 @@\n-u\n+v").data

/-- The concatenation of ALL eight header lines of `hunkDiff2` (both files). -/
def hunkDiff2Headers : List Char :=
  ("diff --git a/f1 b/f1\nindex 1..2 100644\n--- a/f1\n+++ b/f1\n" ++
   "diff --git a/f2 b/f2\nindex 3..4 100644\n--- a/f2\n+++ b/f2\n").data

set_option maxRecDepth 40000 in
/-- C9 counterexample: the chunk for file 1's hunk is NOT prefixed by exactly
file 1's header lines — it contains file 2's headers as well (the header
accumulator is never reset, and the chunk is only flushed when file 2's `@@`
line is reached), and likewise the chunk for file 2's hunk carries file 1's
headers.  In particular `+++ b/f2` occurs inside the first (file 1) chunk. -/
theorem C9_counterexample_header_accumulation :
    split_by_hunks hunkDiff2 = Except.ok
      { chunks := [
          { content := hunkDiff2Headers ++ "@@ -1 +1 @@\n-x\n+y".data,
            description := "Hunk 1" },
          { content := hunkDiff2Headers ++ "@@ -1 +1 @@\n-u\n+v".data,
            description := "Hunk 2" }],
        total_size := byteLen hunkDiff2, split_method := "by_hunks" } ∧
    containsSub (hunkDiff2Headers ++ "@@ -1 +1 @@\n-x\n+y".data) "+++ b/f2".data = true := by
  refine ⟨by decide, by decide⟩

/-- A small single-file, single-hunk diff for the C9 witness. -/
def wHunkDiff : List Char := "diff --git a/f b/f\n@@ -1 +1 @@\n-x".data

/-- The by-hunk result on `wHunkDiff`. -/
def wHunkRes : SplitDiffResult :=
  { chunks := [{ content := "diff --git a/f b/f\n@@ -1 +1 @@\n-x".data,
                 description := "Hunk 1" }],
    total_size := byteLen wHunkDiff, split_method := "by_hunks" }

theorem C9_by_hunks_amended_witness :
    (∀ c ∈ wHunkRes.chunks, ∃ k bl,
      c.content = joinNL (((rustLines wHunkDiff).filter isHeaderLine).take k) ++
        rustTrim (joinNL bl) ∧
      joinNL (((rustLines wHunkDiff).filter isHeaderLine).take k) <+:
        joinNL ((rustLines wHunkDiff).filter isHeaderLine) ∧
      bl ≠ [] ∧ ∀ l ∈ bl, l ∈ rustLines wHunkDiff ∧ isHeaderLine l = false) ∧
    (∃ a, wHunkRes.chunks.map (fun c => c.description) =
      (List.range' a wHunkRes.chunks.length).map (fun i => "Hunk " ++ Nat.repr i)) :=
  C9_by_hunks_amended (by decide)

/-- Represents different categories of commits (`CommitCategory` in
`src/emotes.rs`). -/
inductive CommitCategory where
  | Fix | Feat | Chore | Docs | Style | Refactor | Test | Perf | Build | Ci
  | Deploy | Security | Deps | Revert | Config | Init | Wip | Hotfix | Release
  | Merge | Unknown
deriving DecidableEq, Repr

/-- The UTF8 emote for a commit category (`CommitCategory::emote`). -/
def CommitCategory.emote : CommitCategory → List Char
  | .Fix => "🐛".data
  | .Feat => "✨".data
  | .Chore => "🧹".data
  | .Docs => "📚".data
  | .Style => "💄".data
  | .Refactor => "♻️".data
  | .Test => "🧪".data
  | .Perf => "⚡".data
  | .Build => "🔧".data
  | .Ci => "👷".data
  | .Deploy => "🚀".data
  | .Security => "🔒".data
  | .Deps => "📦".data
  | .Revert => "⏪".data
  | .Config => "⚙️".data
  | .Init => "🎉".data
  | .Wip => "🚧".data
  | .Hotfix => "🚨".data
  | .Release => "🏷️".data
  | .Merge => "🔀".data
  | .Unknown => "❓".data

/-- ASCII fragment of Rust's `str::to_lowercase` (the full function performs
Unicode case mapping; every comparison in this module is against ASCII
tables, for which the ASCII mapping is the relevant behaviour). -/
def rustToLowerChar (c : Char) : Char :=
  if 65 ≤ c.toNat ∧ c.toNat ≤ 90 then Char.ofNat (c.toNat + 32) else c

/-- Lower-case a string character by character. -/
def rustToLower (s : List Char) : List Char := s.map rustToLowerChar

/-- The ordered array of conventional-commit prefixes of
`parse_conventional_commit` (a Rust array: iteration order is fixed by the
declaration). -/
def conventional_patterns : List (List Char × CommitCategory) := [
  ("feat".data, .Feat), ("feature".data, .Feat),
  ("fix".data, .Fix), ("bugfix".data, .Fix), ("bug".data, .Fix),
  ("docs".data, .Docs), ("doc".data, .Docs), ("documentation".data, .Docs),
  ("style".data, .Style),
  ("refactor".data, .Refactor), ("refact".data, .Refactor),
  ("test".data, .Test), ("tests".data, .Test), ("testing".data, .Test),
  ("perf".data, .Perf), ("performance".data, .Perf),
  ("build".data, .Build),
  ("ci".data, .Ci),
  ("chore".data, .Chore),
  ("revert".data, .Revert),
  ("deploy".data, .Deploy), ("deployment".data, .Deploy),
  ("security".data, .Security), ("sec".data, .Security),
  ("deps".data, .Deps), ("dependencies".data, .Deps), ("dependency".data, .Deps),
  ("config".data, .Config), ("configuration".data, .Config),
  ("init".data, .Init), ("initial".data, .Init),
  ("wip".data, .Wip),
  ("hotfix".data, .Hotfix),
  ("release".data, .Release), ("version".data, .Release),
  ("merge".data, .Merge)]

/-- Parse conventional commit format, `type: description` or
`type(scope): description` (`parse_conventional_commit` in `src/emotes.rs`). -/
def parse_conventional_commit (first_line : List Char) : Option CommitCategory :=
  (conventional_patterns.find? (fun p =>
    rustStartsWith (p.1 ++ [':']) first_line ||
    (containsSub first_line (p.1 ++ ['(']) && containsSub first_line "):".data))).map
    (fun p => p.2)

/-- The keyword table of `create_keyword_patterns` in `src/emotes.rs`.  The
Rust code builds a `HashMap` by these insertions; a `HashMap`'s iteration
order is unspecified (randomly seeded per map), so this list records the
insertion order as one canonical order, and order-sensitive claims are
stated over all permutations of it.  Each inner keyword list is a `Vec`,
whose order is fixed. -/
def create_keyword_patterns : List (CommitCategory × List (List Char)) := [
  (.Fix, ["fix".data, "bug".data, "error".data, "issue".data, "problem".data,
    "resolve".data, "correct".data, "patch".data, "repair".data, "debug".data,
    "crash".data, "exception".data, "broken".data, "regression".data,
    "hotfix".data, "critical".data, "urgent".data]),
  (.Feat, ["add".data, "new".data, "feature".data, "implement".data, "create".data,
    "introduce".data, "support".data, "enable".data, "allow".data, "enhance".data,
    "extend".data, "expand".data]),
  (.Docs, ["update readme".data, "readme".data, "documentation".data, "docs".data,
    "comment".data, "comments".data, "guide".data, "tutorial".data, "example".data,
    "examples".data, "changelog".data, "license".data, "contributing".data,
    "api doc".data, "docstring".data]),
  (.Style, ["format".data, "formatting".data, "style".data, "styling".data,
    "indent".data, "whitespace".data, "lint".data, "linting".data, "prettier".data,
    "eslint".data, "code style".data, "cleanup".data, "cosmetic".data,
    "appearance".data]),
  (.Refactor, ["refactor".data, "restructure".data, "reorganize".data,
    "simplify".data, "clean up".data, "extract".data, "rename".data, "move".data,
    "split".data, "combine".data, "optimize structure".data]),
  (.Test, ["test".data, "tests".data, "testing".data, "spec".data, "specs".data,
    "unit test".data, "integration test".data, "e2e".data, "coverage".data,
    "mock".data, "fixture".data]),
  (.Perf, ["performance".data, "optimize".data, "speed".data, "faster".data,
    "efficiency".data, "cache".data, "caching".data, "memory".data, "cpu".data,
    "benchmark".data, "profiling".data]),
  (.Build, ["build".data, "compile".data, "webpack".data, "rollup".data,
    "babel".data, "typescript".data, "makefile".data, "cmake".data, "gradle".data,
    "maven".data, "npm script".data, "yarn".data]),
  (.Ci, ["ci".data, "continuous integration".data, "github actions".data,
    "travis".data, "jenkins".data, "pipeline".data, "workflow".data,
    "automation".data, "deploy script".data]),
  (.Chore, ["chore".data, "maintenance".data, "upgrade".data, "bump".data,
    "cleanup".data, "housekeeping".data, "misc".data, "miscellaneous".data,
    "routine".data]),
  (.Security, ["security vulnerability".data, "security fix".data, "security".data,
    "vulnerability".data, "exploit".data, "xss".data, "csrf".data,
    "injection".data, "authorization".data, "permission".data, "sanitize".data,
    "escape".data]),
  (.Deps, ["package dependencies".data, "update dependencies".data,
    "dependency".data, "dependencies".data, "package".data, "packages".data,
    "npm".data, "yarn".data, "pip".data, "cargo".data, "gem".data,
    "composer".data, "requirements".data, "lock file".data, "bump version".data,
    "upgrade packages".data]),
  (.Config, ["config".data, "configuration".data, "settings".data,
    "environment".data, "env".data, "dotenv".data, "properties".data,
    "yaml".data, "json".data, "toml".data, "ini".data]),
  (.Deploy, ["deploy".data, "deployment".data, "release".data, "publish".data,
    "production".data, "staging".data, "docker".data, "kubernetes".data,
    "helm".data, "terraform".data]),
  (.Init, ["initial commit".data, "first commit".data, "initialize".data,
    "setup".data, "scaffold".data, "bootstrap".data, "project setup".data,
    "initial".data]),
  (.Wip, ["wip".data, "work in progress".data, "todo".data, "fixme".data,
    "temporary".data, "draft".data]),
  (.Merge, ["merge".data, "pull request".data, "pr".data, "branch".data,
    "conflict resolution".data]),
  (.Revert, ["revert".data, "rollback".data, "undo".data, "back out".data,
    "reverse".data])]

/-- Comparison used to model `matches.sort_by(|a, b| b.1.cmp(&a.1))`:
descending by keyword length.  Keywords are ASCII, so the Rust byte length
equals the character count used here. -/
def keywordGe (x y : CommitCategory × Nat) : Prop := y.2 ≤ x.2

instance : DecidableRel keywordGe := fun x y => inferInstanceAs (Decidable (y.2 ≤ x.2))

instance : IsTotal (CommitCategory × Nat) keywordGe := ⟨fun a b => le_total b.2 a.2⟩

instance : IsTrans (CommitCategory × Nat) keywordGe := ⟨fun _ _ _ h1 h2 => le_trans h2 h1⟩

/-- The match list collected by `analyze_keywords` when the `HashMap`
iterates in the order given by `tbl`: for each (category, keywords) entry in
iteration order and each keyword in declaration order, the pair
`(category, keyword.len())` when the keyword occurs in the message. -/
def keywordMatches (tbl : List (CommitCategory × List (List Char)))
    (message : List Char) : List (CommitCategory × Nat) :=
  tbl.flatMap (fun p =>
    (p.2.filter (fun kw => containsSub message kw)).map (fun kw => (p.1, kw.length)))

/-- Analyze keywords in the commit message (`analyze_keywords` in
`src/emotes.rs`), with the `HashMap` iteration order `tbl` made explicit.
Rust's `sort_by` is a stable sort; `List.insertionSort` is stable for the
same comparison, so the first element of the sorted list is the first
maximal-length match in iteration order, as in the Rust code. -/
def analyze_keywords_with (tbl : List (CommitCategory × List (List Char)))
    (message : List Char) : Option CommitCategory :=
  match List.insertionSort keywordGe (keywordMatches tbl message) with
  | [] => none
  | m :: _ => some m.1

/-- `analyze_keywords` read with the canonical (insertion-order) table. -/
def analyze_keywords (message : List Char) : Option CommitCategory :=
  analyze_keywords_with create_keyword_patterns message

/-- Analyze context clues in the commit message (`analyze_context` in
`src/emotes.rs`). -/
def analyze_context (message : List Char) : Option CommitCategory :=
  if containsSub message ".md".data || containsSub message "readme".data ||
      containsSub message "doc/".data then
    some CommitCategory.Docs
  else if containsSub message "package.json".data || containsSub message "cargo.toml".data ||
      containsSub message "requirements.txt".data || containsSub message "gemfile".data then
    some CommitCategory.Deps
  else if containsSub message ".yml".data || containsSub message ".yaml".data ||
      containsSub message "config".data || containsSub message ".env".data then
    some CommitCategory.Config
  else if containsSub message "dockerfile".data || containsSub message "docker-compose".data ||
      containsSub message ".github/workflows".data || containsSub message "ci/".data then
    some CommitCategory.Ci
  else if containsSub message "test/".data || containsSub message "spec/".data ||
      containsSub message "__tests__".data || containsSub message ".test.".data then
    some CommitCategory.Test
  else
    none

/-- `categorize_commit_message` with the keyword `HashMap` iteration order
made explicit. -/
def categorize_with (tbl : List (CommitCategory × List (List Char)))
    (message : List Char) : CommitCategory :=
  let message_lower := rustToLower message
  let first_line := rustToLower ((rustLines message).headD [])
  match parse_conventional_commit first_line with
  | some c => c
  | none =>
    match analyze_keywords_with tbl message_lower with
    | some c => c
    | none =>
      match analyze_context message_lower with
      | some c => c
      | none => CommitCategory.Unknown

/-- Analyzes a commit message and determines its category
(`categorize_commit_message` in `src/emotes.rs`), read with the canonical
keyword-table order. -/
def categorize_commit_message (message : List Char) : CommitCategory :=
  categorize_with create_keyword_patterns message

/-- Check if a message already starts with an emote (`starts_with_emote` in
`src/emotes.rs`): the first character lies in one of four hand-picked
Unicode ranges. -/
def starts_with_emote (message : List Char) : Bool :=
  match message with
  | [] => false
  | c :: _ =>
    (0x1F300 ≤ c.toNat && c.toNat ≤ 0x1F9FF) ||
    (0x2600 ≤ c.toNat && c.toNat ≤ 0x26FF) ||
    (0x2700 ≤ c.toNat && c.toNat ≤ 0x27BF) ||
    (0x1F1E0 ≤ c.toNat && c.toNat ≤ 0x1F1FF)

/-- Add emote to a commit message (`add_emote_to_commit_message` in
`src/emotes.rs`): trim, return unchanged if it already starts with an emote,
otherwise prepend the category's emote and a space. -/
def add_emote_to_commit_message (message : List Char) (category : CommitCategory) : List Char :=
  let trimmed_message := rustTrim message
  if starts_with_emote trimmed_message then trimmed_message
  else category.emote ++ ' ' :: trimmed_message

/-- Process a commit message by categorizing it and adding the emote
(`process_commit_message` in `src/emotes.rs`). -/
def process_commit_message (message : List Char) : List Char :=
  add_emote_to_commit_message message (categorize_commit_message message)

/-! ### C6: idempotence of emote decoration -/

theorem rustTrim_head_not_ws {m : List Char} {c₀ : Char} {t : List Char}
    (h : rustTrim m = c₀ :: t) : rustIsWhitespace c₀ = false := by
  have hsplit := List.takeWhile_append_dropWhile rustIsWhitespace
      (m.dropWhile rustIsWhitespace).reverse
  have hA : m.dropWhile rustIsWhitespace =
      rustTrim m ++
        ((m.dropWhile rustIsWhitespace).reverse.takeWhile rustIsWhitespace).reverse := by
    unfold rustTrim
    calc m.dropWhile rustIsWhitespace
        = (m.dropWhile rustIsWhitespace).reverse.reverse := (List.reverse_reverse _).symm
      _ = ((m.dropWhile rustIsWhitespace).reverse.takeWhile rustIsWhitespace ++
            (m.dropWhile rustIsWhitespace).reverse.dropWhile rustIsWhitespace).reverse := by
          rw [hsplit]
      _ = _ := by rw [List.reverse_append]
  have hhead : (m.dropWhile rustIsWhitespace).head? = some c₀ := by
    rw [hA, h]; rfl
  have hw := List.head?_dropWhile_not rustIsWhitespace m
  rw [hhead] at hw
  exact hw

theorem rustTrim_getLast_not_ws {m : List Char} {c₂ : Char}
    (h : (rustTrim m).getLast? = some c₂) : rustIsWhitespace c₂ = false := by
  have hw := List.head?_dropWhile_not rustIsWhitespace
      (m.dropWhile rustIsWhitespace).reverse
  unfold rustTrim at h
  rw [List.getLast?_reverse] at h
  rw [h] at hw
  exact hw

theorem emote_ne_nil (c : CommitCategory) : c.emote ≠ [] := by
  cases c <;> decide

theorem emote_head_not_ws (c : CommitCategory) :
    rustIsWhitespace (c.emote.headD '?') = false := by
  cases c <;> decide

theorem emote_starts (c : CommitCategory) (hc : c ≠ CommitCategory.Revert) :
    starts_with_emote c.emote = true := by
  cases c <;> first | exact absurd rfl hc | decide

theorem starts_with_emote_append {s : List Char} (hs : s ≠ []) (l : List Char) :
    starts_with_emote (s ++ l) = starts_with_emote s := by
  cases s with
  | nil => exact absurd rfl hs
  | cons a t => rfl

/-- C6 counterexample: decoration is not idempotent in general.  For the
`Revert` category the emote `⏪` (U+23EA) lies outside every range checked
by `starts_with_emote`, so a second decoration prepends the emote again; and
for a whitespace-only message the first decoration produces `"🐛 "`, whose
trailing space the second decoration trims away. -/
theorem C6_counterexample_revert_and_blank :
    add_emote_to_commit_message
        (add_emote_to_commit_message "x".data CommitCategory.Revert)
        CommitCategory.Revert ≠
      add_emote_to_commit_message "x".data CommitCategory.Revert ∧
    add_emote_to_commit_message
        (add_emote_to_commit_message " ".data CommitCategory.Fix)
        CommitCategory.Fix ≠
      add_emote_to_commit_message " ".data CommitCategory.Fix := by
  refine ⟨by decide, by decide⟩

/-- C6 (amended): for every category other than `Revert` and every message
whose trim is nonempty, decoration is idempotent, and the decorated message
starts with a character in the recognized emote ranges. -/
theorem C6_decorate_idempotent_amended (m : List Char) (c : CommitCategory)
    (hc : c ≠ CommitCategory.Revert) (hm : rustTrim m ≠ []) :
    add_emote_to_commit_message (add_emote_to_commit_message m c) c =
      add_emote_to_commit_message m c ∧
    starts_with_emote (add_emote_to_commit_message m c) = true := by
  obtain ⟨c₀, t, ht⟩ : ∃ c₀ t, rustTrim m = c₀ :: t := by
    cases hq : rustTrim m with
    | nil => exact absurd hq hm
    | cons a b => exact ⟨a, b, rfl⟩
  have hhead : (rustTrim m).head? = some c₀ := by rw [ht]; rfl
  have hheadws : rustIsWhitespace c₀ = false := rustTrim_head_not_ws ht
  have hlast0 : (c₀ :: t).getLast? = some ((c₀ :: t).getLast (by simp)) :=
    List.getLast?_eq_getLast _ _
  have hlast : (rustTrim m).getLast? = some ((c₀ :: t).getLast (by simp)) := by
    rw [ht]; exact hlast0
  have hlastws := rustTrim_getLast_not_ws hlast
  have hidem : rustTrim (rustTrim m) = rustTrim m :=
    rustTrim_eq_self hhead hheadws hlast hlastws
  by_cases hs : starts_with_emote (rustTrim m) = true
  · have h1 : add_emote_to_commit_message m c = rustTrim m := by
      simp only [add_emote_to_commit_message]
      rw [if_pos hs]
    rw [h1]
    refine ⟨?_, hs⟩
    simp only [add_emote_to_commit_message]
    rw [hidem, if_pos hs]
  · have hene := emote_ne_nil c
    obtain ⟨e₀, er, he⟩ : ∃ e₀ er, c.emote = e₀ :: er := by
      cases hq : c.emote with
      | nil => exact absurd hq hene
      | cons a b => exact ⟨a, b, rfl⟩
    have hewsD := emote_head_not_ws c
    rw [he] at hewsD
    have hswe : starts_with_emote (c.emote ++ ' ' :: rustTrim m) = true := by
      rw [starts_with_emote_append hene]; exact emote_starts c hc
    have h1 : add_emote_to_commit_message m c = c.emote ++ ' ' :: rustTrim m := by
      simp only [add_emote_to_commit_message]
      rw [if_neg hs]
    have hr : rustTrim (c.emote ++ ' ' :: rustTrim m) = c.emote ++ ' ' :: rustTrim m := by
      refine @rustTrim_eq_self _ e₀ _ ?_ hewsD ?_ hlastws
      · rw [he]; rfl
      · rw [ht, List.getLast?_append, List.getLast?_cons_cons]
        rw [ht] at hlast
        rw [hlast]
        rfl
    rw [h1]
    refine ⟨?_, hswe⟩
    simp only [add_emote_to_commit_message]
    rw [hr, if_pos hswe]

theorem C6_decorate_idempotent_amended_witness :
    add_emote_to_commit_message
        (add_emote_to_commit_message "x".data CommitCategory.Fix)
        CommitCategory.Fix =
      add_emote_to_commit_message "x".data CommitCategory.Fix ∧
    starts_with_emote (add_emote_to_commit_message "x".data CommitCategory.Fix) = true :=
  C6_decorate_idempotent_amended "x".data CommitCategory.Fix (by decide) (by decide)

/-! ### C7: longest keyword wins in the keyword-matching layer -/

theorem insertionSort_head_max {l : List (CommitCategory × Nat)}
    {m : CommitCategory × Nat} {ms : List (CommitCategory × Nat)}
    (h : List.insertionSort keywordGe l = m :: ms) :
    m ∈ l ∧ ∀ x ∈ l, x.2 ≤ m.2 := by
  have hperm := List.perm_insertionSort keywordGe l
  have hsorted := List.sorted_insertionSort keywordGe l
  rw [h] at hperm hsorted
  constructor
  · exact hperm.mem_iff.mp (List.mem_cons_self m ms)
  · intro x hx
    have hx' : x ∈ m :: ms := hperm.mem_iff.mpr hx
    rcases List.mem_cons.mp hx' with h1 | h2
    · cases h1; exact le_refl _
    · exact List.rel_of_sorted_cons hsorted x h2

theorem mem_keywordMatches {tbl : List (CommitCategory × List (List Char))}
    {message : List Char} {x : CommitCategory × Nat} :
    x ∈ keywordMatches tbl message ↔
      ∃ kws kw, (x.1, kws) ∈ tbl ∧ kw ∈ kws ∧ containsSub message kw = true ∧
        x.2 = kw.length := by
  unfold keywordMatches
  rw [List.mem_flatMap]
  constructor
  · rintro ⟨p, hp, hx⟩
    rw [List.mem_map] at hx
    obtain ⟨kw, hkw, hxeq⟩ := hx
    rw [List.mem_filter] at hkw
    refine ⟨p.2, kw, ?_, hkw.1, hkw.2, ?_⟩
    · rw [← hxeq]
      simpa using hp
    · rw [← hxeq]
  · rintro ⟨kws, kw, htbl, hkw, hcon, hlen⟩
    refine ⟨(x.1, kws), htbl, ?_⟩
    rw [List.mem_map]
    refine ⟨kw, List.mem_filter.mpr ⟨hkw, hcon⟩, ?_⟩
    rw [← hlen]

/-- C7: whenever the keyword layer classifies a message, the returned
category is witnessed by a keyword of the table that occurs in the message
and whose length is maximal among all occurring keywords of all categories;
and on `"Fix critical security vulnerability"` the whole classifier returns
`Security` (via the 22-character keyword), not `Fix`. -/
theorem C7_longest_keyword_wins :
    (∀ (message : List Char) (c : CommitCategory),
      analyze_keywords message = some c →
      ∃ kws kw, (c, kws) ∈ create_keyword_patterns ∧ kw ∈ kws ∧
        containsSub message kw = true ∧
        ∀ c' kws' kw', (c', kws') ∈ create_keyword_patterns → kw' ∈ kws' →
          containsSub message kw' = true → kw'.length ≤ kw.length) ∧
    categorize_commit_message "Fix critical security vulnerability".data =
      CommitCategory.Security ∧
    CommitCategory.Security ≠ CommitCategory.Fix := by
  refine ⟨?_, by decide, by decide⟩
  intro message c h
  unfold analyze_keywords analyze_keywords_with at h
  rcases hsort : List.insertionSort keywordGe
      (keywordMatches create_keyword_patterns message) with _ | ⟨m, ms⟩
  · rw [hsort] at h
    simp at h
  · rw [hsort] at h
    simp only [Option.some.injEq] at h
    obtain ⟨hmem, hmax⟩ := insertionSort_head_max hsort
    obtain ⟨kws, kw, htbl, hkw, hcon, hlen⟩ := mem_keywordMatches.mp hmem
    refine ⟨kws, kw, ?_, hkw, hcon, ?_⟩
    · rw [← h]; exact htbl
    · intro c' kws' kw' htbl' hkw' hcon'
      have hin : (c', kw'.length) ∈ keywordMatches create_keyword_patterns message :=
        mem_keywordMatches.mpr ⟨kws', kw', htbl', hkw', hcon', rfl⟩
      have hle := hmax _ hin
      rw [hlen] at hle
      exact hle

theorem C7_longest_keyword_wins_witness :
    ∃ kws kw, (CommitCategory.Fix, kws) ∈ create_keyword_patterns ∧ kw ∈ kws ∧
      containsSub "fix bug".data kw = true ∧
      ∀ c' kws' kw', (c', kws') ∈ create_keyword_patterns → kw' ∈ kws' →
        containsSub "fix bug".data kw' = true → kw'.length ≤ kw.length :=
  C7_longest_keyword_wins.1 "fix bug".data CommitCategory.Fix (by decide)

/-! ### C8: determinism of categorize under HashMap iteration order -/

/-- The keyword table with its first two `HashMap` insertions (`Fix` and
`Feat`) visited in the opposite order: a permutation of the canonical table,
hence a possible `HashMap` iteration order. -/
def swapped_keyword_patterns : List (CommitCategory × List (List Char)) :=
  match create_keyword_patterns with
  | e₁ :: e₂ :: rest => e₂ :: e₁ :: rest
  | l => l

theorem swapped_keyword_patterns_perm :
    List.Perm swapped_keyword_patterns create_keyword_patterns :=
  List.Perm.swap _ _ _

/-- All maximal-length keyword matches of the (lower-cased) message agree on
the category: the tie-break condition under which the keyword layer is
order-independent. -/
def maxMatchesSameCategory (ml : List Char) : Prop :=
  ∀ x ∈ keywordMatches create_keyword_patterns ml,
    ∀ y ∈ keywordMatches create_keyword_patterns ml,
      (∀ z ∈ keywordMatches create_keyword_patterns ml, z.2 ≤ x.2) →
      (∀ z ∈ keywordMatches create_keyword_patterns ml, z.2 ≤ y.2) →
      x.1 = y.1

instance (ml : List Char) : Decidable (maxMatchesSameCategory ml) := by
  unfold maxMatchesSameCategory
  infer_instance

theorem keywordMatches_perm {tbl : List (CommitCategory × List (List Char))}
    (hperm : List.Perm tbl create_keyword_patterns) (ml : List Char) :
    List.Perm (keywordMatches tbl ml) (keywordMatches create_keyword_patterns ml) :=
  List.Perm.flatMap_right _ hperm

theorem analyze_keywords_with_perm {tbl : List (CommitCategory × List (List Char))}
    (hperm : List.Perm tbl create_keyword_patterns) (ml : List Char)
    (hsame : maxMatchesSameCategory ml) :
    analyze_keywords_with tbl ml = analyze_keywords_with create_keyword_patterns ml := by
  have hmp := keywordMatches_perm hperm ml
  unfold analyze_keywords_with
  rcases h1 : List.insertionSort keywordGe (keywordMatches tbl ml) with _ | ⟨m1, ms1⟩ <;>
    rcases h2 : List.insertionSort keywordGe
      (keywordMatches create_keyword_patterns ml) with _ | ⟨m2, ms2⟩
  · rfl
  · exfalso
    have hps := List.perm_insertionSort keywordGe (keywordMatches tbl ml)
    rw [h1] at hps
    have e1 : keywordMatches tbl ml = [] := hps.nil_eq.symm
    rw [e1] at hmp
    have e2 : keywordMatches create_keyword_patterns ml = [] := hmp.nil_eq.symm
    rw [e2] at h2
    simp [List.insertionSort] at h2
  · exfalso
    have hps := List.perm_insertionSort keywordGe
      (keywordMatches create_keyword_patterns ml)
    rw [h2] at hps
    have e2 : keywordMatches create_keyword_patterns ml = [] := hps.nil_eq.symm
    rw [e2] at hmp
    have e1 : keywordMatches tbl ml = [] := hmp.eq_nil
    rw [e1] at h1
    simp [List.insertionSort] at h1
  · show some m1.1 = some m2.1
    obtain ⟨hm1mem, hm1max⟩ := insertionSort_head_max h1
    obtain ⟨hm2mem, hm2max⟩ := insertionSort_head_max h2
    have hm1mem' : m1 ∈ keywordMatches create_keyword_patterns ml :=
      hmp.mem_iff.mp hm1mem
    have hm1max' : ∀ z ∈ keywordMatches create_keyword_patterns ml, z.2 ≤ m1.2 := by
      intro z hz
      exact hm1max z (hmp.mem_iff.mpr hz)
    rw [hsame m1 hm1mem' m2 hm2mem hm1max' hm2max]

/-- C8 counterexample: `categorize` is not deterministic across `HashMap`
iteration orders.  The swapped table is a permutation of the canonical one,
yet on `"fix new"` — where the keywords `fix` (Fix) and `new` (Feat) tie at
length 3 — the two orders classify differently. -/
theorem C8_counterexample_hash_order :
    List.Perm swapped_keyword_patterns create_keyword_patterns ∧
    categorize_with swapped_keyword_patterns "fix new".data ≠
      categorize_with create_keyword_patterns "fix new".data :=
  ⟨swapped_keyword_patterns_perm, by decide⟩

/-- C8 (amended): `categorize` is independent of the `HashMap` iteration
order whenever all maximal-length keyword matches of the lower-cased message
agree on the category (in particular when there is no cross-category tie at
maximal length); the conventional-prefix and context stages never consult
the table, so the whole classifier is then deterministic. -/
theorem C8_deterministic_amended (tbl : List (CommitCategory × List (List Char)))
    (hperm : List.Perm tbl create_keyword_patterns) (m : List Char)
    (hsame : maxMatchesSameCategory (rustToLower m)) :
    categorize_with tbl m = categorize_with create_keyword_patterns m := by
  simp only [categorize_with]
  rw [analyze_keywords_with_perm hperm (rustToLower m) hsame]

theorem C8_deterministic_amended_witness :
    categorize_with swapped_keyword_patterns "fix bug".data =
      categorize_with create_keyword_patterns "fix bug".data :=
  C8_deterministic_amended swapped_keyword_patterns swapped_keyword_patterns_perm
    "fix bug".data (by decide)
